import Mathlib

/-!
Verification development for the SMO dual solver (`solver_smo.rs`) and the
Gaussian Naive Bayes classifier (`gaussian_nb.rs`) of the linfa fragment.

The embedding is exact-rational: the abstract `Float` type of the source is
modelled by `ℚ`, extended with `±∞` (`ERat`) where the source uses IEEE
infinities as fold seeds.  Because Mathlib marks the primitive `Rat`
arithmetic `@[irreducible]`, we route all arithmetic of the embedding through
kernel-reducible wrappers (`qadd`, `qmul`, ...) built on `Rat.divInt`, and
prove once that they agree with the ordinary field operations.
-/

namespace LinfaProof

/-- Kernel-reducible rational from a numerator and denominator. -/
def qq (n d : ℤ) : ℚ := Rat.divInt n d

/-- Kernel-reducible addition on `ℚ`. -/
def qadd (a b : ℚ) : ℚ := Rat.divInt (a.num * b.den + b.num * a.den) (a.den * b.den)

/-- Kernel-reducible multiplication on `ℚ`. -/
def qmul (a b : ℚ) : ℚ := Rat.divInt (a.num * b.num) (a.den * b.den)

/-- Kernel-reducible division on `ℚ` (zero when the divisor is zero). -/
def qdiv (a b : ℚ) : ℚ := Rat.divInt (a.num * b.den) (a.den * b.num)

/-- Kernel-reducible subtraction on `ℚ`. -/
def qsub (a b : ℚ) : ℚ := qadd a (-b)

/-- Kernel-reducible list sum on `ℚ`. -/
def qsum (l : List ℚ) : ℚ := l.foldr qadd 0

/-- Kernel-reducible cast of a natural number into `ℚ`. -/
def qnat (n : ℕ) : ℚ := Rat.divInt (Int.ofNat n) 1

/-! ### Extended rationals

The solver seeds several folds with `±∞` (IEEE infinities).  `ERat` models the
values that can arise there: `ninf`/`pinf` for the infinite seeds, `fin q` for
ordinary floats.  The sum `pinf + ninf` (IEEE NaN) is given the junk value
`fin 0`; no theorem below depends on it. -/

inductive ERat where
  | ninf : ERat
  | fin : ℚ → ERat
  | pinf : ERat
deriving DecidableEq

namespace ERat

/-- Addition with absorbing infinities, as for IEEE floats. -/
def add : ERat → ERat → ERat
  | ninf, pinf => fin 0
  | ninf, ninf => ninf
  | ninf, fin _ => ninf
  | pinf, ninf => fin 0
  | pinf, pinf => pinf
  | pinf, fin _ => pinf
  | fin a, fin b => fin (qadd a b)
  | fin _, ninf => ninf
  | fin _, pinf => pinf

/-- Negation. -/
def neg : ERat → ERat
  | ninf => pinf
  | pinf => ninf
  | fin a => fin (-a)

/-- Subtraction. -/
def sub (a b : ERat) : ERat := add a (neg b)

/-- Halving, used by the `rho` computations. -/
def half : ERat → ERat
  | fin a => fin (qdiv a 2)
  | ninf => ninf
  | pinf => pinf

/-- Strict order test. -/
def blt : ERat → ERat → Bool
  | ninf, ninf => false
  | ninf, fin _ => true
  | ninf, pinf => true
  | fin _, ninf => false
  | fin a, fin b => decide (a < b)
  | fin _, pinf => true
  | pinf, _ => false

/-- Non-strict order test. -/
def ble (a b : ERat) : Bool := !(blt b a)

/-- Strict order. -/
def lt (a b : ERat) : Prop := blt a b = true

/-- Non-strict order. -/
def le (a b : ERat) : Prop := ble a b = true

instance (a b : ERat) : Decidable (lt a b) := instDecidableEqBool _ _

instance (a b : ERat) : Decidable (le a b) := instDecidableEqBool _ _

/-- Maximum (the source's `A::max`). -/
def emax (a b : ERat) : ERat := if blt a b then b else a

/-- Minimum (the source's `A::min`). -/
def emin (a b : ERat) : ERat := if blt a b then a else b

/-- Underlying rational of a finite value, junk `0` at infinities. -/
def toQ : ERat → ℚ
  | fin a => a
  | _ => 0

end ERat

/-! ### SMO solver state

`SmoState` mirrors `SolverState` of `solver_smo.rs`.  Arrays are modelled as
total functions from positions; `n` is the total number of variables
(`ntotal`).  The per-variable `Alpha` struct (value, upper bound) is split
into the two parallel functions `alphaVal` and `alphaUB`.  The permutable
kernel is modelled by its current view `kernel : ℕ → ℕ → ℚ`, with
`swap_indices` acting by index transposition. -/

structure SmoState where
  n : ℕ
  gradient : ℕ → ℚ
  gradientFixed : ℕ → ℚ
  alphaVal : ℕ → ℚ
  alphaUB : ℕ → ℚ
  p : ℕ → ℚ
  targets : ℕ → Bool
  bounds : ℕ → ℚ
  activeSet : ℕ → ℕ
  nactive : ℕ
  unshrink : Bool
  nuConstraint : Bool
  r : ERat
  kernel : ℕ → ℕ → ℚ
  eps : ℚ
  shrinking : Bool

namespace SmoState

/-- Alpha status: `value >= upper_bound` (`Alpha::reached_upper`). -/
def reachedUpper (s : SmoState) (i : ℕ) : Bool := decide (s.alphaUB i ≤ s.alphaVal i)

/-- Alpha status: `0 < value < upper_bound` (`Alpha::free_floating`). -/
def freeFloating (s : SmoState) (i : ℕ) : Bool :=
  decide (s.alphaVal i < s.alphaUB i ∧ 0 < s.alphaVal i)

/-- Alpha status: `value == 0` (`Alpha::reached_lower`). -/
def reachedLower (s : SmoState) (i : ℕ) : Bool := decide (s.alphaVal i = 0)

/-- Target as a `±1` indicator (`SolverState::target`). -/
def target (s : SmoState) (i : ℕ) : ℚ := if s.targets i then 1 else -1

/-- Index transposition. -/
def swapIdx (i j k : ℕ) : ℕ := if k = i then j else if k = j then i else k

/-- Transposition acting on an array-as-function. -/
def swapFn {α : Type} (f : ℕ → α) (i j : ℕ) : ℕ → α := fun k => f (swapIdx i j k)

/-- The solver's `swap`: permutes `gradient`, `gradient_fixed`, `alpha`
(value and stored bound), `p`, `active_set`, the kernel view and `targets`.
The `bounds` array is NOT swapped, exactly as in the source. -/
def swap (s : SmoState) (i j : ℕ) : SmoState :=
  { s with
    gradient := swapFn s.gradient i j
    gradientFixed := swapFn s.gradientFixed i j
    alphaVal := swapFn s.alphaVal i j
    alphaUB := swapFn s.alphaUB i j
    p := swapFn s.p i j
    activeSet := swapFn s.activeSet i j
    kernel := fun a b => s.kernel (swapIdx i j a) (swapIdx i j b)
    targets := swapFn s.targets i j }

/-- The `solve` epilogue "put back the solution":
`alpha[i] = self.alpha[self.active_set[i]].val()` for `i in 0..ntotal`. -/
def putBack (s : SmoState) : List ℚ :=
  (List.range s.n).map (fun i => s.alphaVal (s.activeSet i))

/-- One optimization step over the working set `(i, j)`
(`SolverState::update`), written as a pure state transformer.  The sequential
mutations of the source are expressed by the let-chain; the two clipping
blocks of each branch keep the exact guard structure of the source. -/
def update (s : SmoState) (i j : ℕ) : SmoState :=
  let distI := s.kernel i
  let distJ := s.kernel j
  let boundI := s.bounds i
  let boundJ := s.bounds j
  let oldAi := s.alphaVal i
  let oldAj := s.alphaVal j
  let newIJ : ℚ × ℚ :=
    if s.targets i ≠ s.targets j then
      -- opposite-sign case
      let quad0 := qadd (qadd (s.kernel i i) (s.kernel j j)) (qmul 2 (distI j))
      let quadCoef := if quad0 ≤ 0 then qq 1 10000000000 else quad0
      let delta := qdiv (-(qadd (s.gradient i) (s.gradient j))) quadCoef
      let diff := qsub oldAi oldAj
      let ai1 := qadd oldAi delta
      let aj1 := qadd oldAj delta
      let c1 : ℚ × ℚ :=
        if 0 < diff then
          (if aj1 < 0 then (diff, (0 : ℚ)) else (ai1, aj1))
        else
          (if ai1 < 0 then ((0 : ℚ), -diff) else (ai1, aj1))
      if qsub boundI boundJ < diff then
        (if boundI < c1.1 then (boundI, qsub boundI diff) else c1)
      else
        (if boundJ < c1.2 then (qadd boundJ diff, boundJ) else c1)
    else
      -- same-sign case
      let quad0 := qsub (qadd (s.kernel i i) (s.kernel j j)) (qmul 2 (distI j))
      let quadCoef := if quad0 ≤ 0 then qq 1 10000000000 else quad0
      let delta := qdiv (qsub (s.gradient i) (s.gradient j)) quadCoef
      let sum := qadd oldAi oldAj
      let ai1 := qsub oldAi delta
      let aj1 := qadd oldAj delta
      let c1 : ℚ × ℚ :=
        if boundI < sum then
          (if boundI < ai1 then (boundI, qsub sum boundI) else (ai1, aj1))
        else
          (if aj1 < 0 then (sum, (0 : ℚ)) else (ai1, aj1))
      if boundJ < sum then
        (if boundJ < c1.2 then (qsub sum boundJ, boundJ) else c1)
      else
        (if c1.1 < 0 then ((0 : ℚ), sum) else c1)
  let ai := newIJ.1
  let aj := newIJ.2
  let deltaAlphaI := qsub ai oldAi
  let deltaAlphaJ := qsub aj oldAj
  let gradient1 : ℕ → ℚ := fun k =>
    if k < s.nactive then
      qadd (s.gradient k) (qadd (qmul (distI k) deltaAlphaI) (qmul (distJ k) deltaAlphaJ))
    else s.gradient k
  -- `ui`/`uj` are read AFTER the value mutations, against the stored bound,
  -- exactly as in the source (lines 325-326).
  let ui := decide (s.alphaUB i ≤ ai)
  let uj := decide (s.alphaUB j ≤ aj)
  let alphaUB1 : ℕ → ℚ := fun k =>
    if k = j then s.bounds j else if k = i then s.bounds i else s.alphaUB k
  let uiAfter := decide (s.bounds i ≤ ai)
  let ujAfter := decide (s.bounds j ≤ aj)
  let gf1 : ℕ → ℚ :=
    if ui ≠ uiAfter then
      (if ui then fun k =>
        if k < s.n then qsub (s.gradientFixed k) (qmul boundI (distI k)) else s.gradientFixed k
      else fun k =>
        if k < s.n then qadd (s.gradientFixed k) (qmul boundI (distI k)) else s.gradientFixed k)
    else s.gradientFixed
  let gf2 : ℕ → ℚ :=
    if uj ≠ ujAfter then
      (if uj then fun k =>
        if k < s.nactive then qsub (gf1 k) (qmul boundJ (distJ k)) else gf1 k
      else fun k =>
        if k < s.nactive then qadd (gf1 k) (qmul boundJ (distJ k)) else gf1 k)
    else gf1
  { s with
    alphaVal := fun k => if k = j then aj else if k = i then ai else s.alphaVal k
    alphaUB := alphaUB1
    gradient := gradient1
    gradientFixed := gf2 }

/-! ### Working-set selection -/

/-- One step of the fold of `max_violating_pair`: position `i` updates the
two running maxima (with `>=`, so later ties win, as in the source). -/
def mvpStep (s : SmoState) (acc : (ERat × ℤ) × (ERat × ℤ)) (i : ℕ) :
    (ERat × ℤ) × (ERat × ℤ) :=
  let g1 := acc.1
  let g2 := acc.2
  if s.targets i then
    let g1a := if s.reachedUpper i = false ∧ ERat.le g1.1 (ERat.fin (-(s.gradient i))) then
        (ERat.fin (-(s.gradient i)), (i : ℤ)) else g1
    let g2a := if s.reachedLower i = false ∧ ERat.le g2.1 (ERat.fin (s.gradient i)) then
        (ERat.fin (s.gradient i), (i : ℤ)) else g2
    (g1a, g2a)
  else
    let g2a := if s.reachedUpper i = false ∧ ERat.le g2.1 (ERat.fin (-(s.gradient i))) then
        (ERat.fin (-(s.gradient i)), (i : ℤ)) else g2
    let g1a := if s.reachedLower i = false ∧ ERat.le g1.1 (ERat.fin (s.gradient i)) then
        (ERat.fin (s.gradient i), (i : ℤ)) else g1
    (g1a, g2a)

/-- The fold of `max_violating_pair` over the first `k` positions. -/
def mvpGo (s : SmoState) : ℕ → (ERat × ℤ) × (ERat × ℤ)
  | 0 => ((ERat.ninf, -1), (ERat.ninf, -1))
  | k + 1 => mvpStep s (mvpGo s k) k

/-- The source's `max_violating_pair` (fold over the active prefix). -/
def maxViolatingPair (s : SmoState) : (ERat × ℤ) × (ERat × ℤ) := mvpGo s s.nactive

/-- The sum `gmax1.0 + gmax2.0` used by the optimality tests. -/
def mvpSum (s : SmoState) : ERat :=
  ERat.add (maxViolatingPair s).1.1 (maxViolatingPair s).2.1

/-- Four extrema accumulator of `max_violating_pair_nu`. -/
structure Gmax4 where
  g1 : ERat × ℤ
  g2 : ERat × ℤ
  g3 : ERat × ℤ
  g4 : ERat × ℤ

/-- One step of the fold of `max_violating_pair_nu` (strict `>` here). -/
def mvpNuStep (s : SmoState) (acc : Gmax4) (i : ℕ) : Gmax4 :=
  if s.targets i then
    { acc with
      g1 := if s.reachedUpper i = false ∧ ERat.lt acc.g1.1 (ERat.fin (-(s.gradient i))) then
          (ERat.fin (-(s.gradient i)), (i : ℤ)) else acc.g1
      g3 := if s.reachedLower i = false ∧ ERat.lt acc.g3.1 (ERat.fin (s.gradient i)) then
          (ERat.fin (s.gradient i), (i : ℤ)) else acc.g3 }
  else
    { acc with
      g4 := if s.reachedUpper i = false ∧ ERat.lt acc.g4.1 (ERat.fin (-(s.gradient i))) then
          (ERat.fin (-(s.gradient i)), (i : ℤ)) else acc.g4
      g2 := if s.reachedLower i = false ∧ ERat.lt acc.g2.1 (ERat.fin (s.gradient i)) then
          (ERat.fin (s.gradient i), (i : ℤ)) else acc.g2 }

/-- The fold of `max_violating_pair_nu` over the first `k` positions. -/
def mvpNuGo (s : SmoState) : ℕ → Gmax4
  | 0 => ⟨(ERat.ninf, -1), (ERat.ninf, -1), (ERat.ninf, -1), (ERat.ninf, -1)⟩
  | k + 1 => mvpNuStep s (mvpNuGo s k) k

/-- The source's `max_violating_pair_nu`. -/
def maxViolatingPairNu (s : SmoState) : Gmax4 := mvpNuGo s s.nactive

/-- One step of the second-index scan of `select_working_set`: candidate `j`
may replace the running `(obj_diff_min, index)` accumulator. -/
def jStep (s : SmoState) (gm : ERat × ℤ) (acc : ERat × ℤ) (j : ℕ) : ERat × ℤ :=
  let i := gm.2.toNat
  if s.targets j then
    if s.reachedLower j = false then
      let gradDiff := ERat.add gm.1 (ERat.fin (s.gradient j))
      if ERat.lt (ERat.fin 0) gradDiff then
        let gd := ERat.toQ gradDiff
        let quadCoef := qsub (qadd (s.kernel i i) (s.kernel j j))
          (qmul (qmul 2 (s.target i)) (s.kernel i j))
        let objDiff := if 0 < quadCoef then qdiv (-(qmul gd gd)) quadCoef
          else qdiv (-(qmul gd gd)) (qq 1 10000000000)
        if ERat.le (ERat.fin objDiff) acc.1 then (ERat.fin objDiff, (j : ℤ)) else acc
      else acc
    else acc
  else
    if s.reachedUpper j = false then
      let gradDiff := ERat.sub gm.1 (ERat.fin (s.gradient j))
      if ERat.lt (ERat.fin 0) gradDiff then
        let gd := ERat.toQ gradDiff
        let quadCoef := qadd (qadd (s.kernel i i) (s.kernel j j))
          (qmul (qmul 2 (s.target i)) (s.kernel i j))
        let objDiff := if 0 < quadCoef then qdiv (-(qmul gd gd)) quadCoef
          else qdiv (-(qmul gd gd)) (qq 1 10000000000)
        if ERat.le (ERat.fin objDiff) acc.1 then (ERat.fin objDiff, (j : ℤ)) else acc
      else acc
    else acc

/-- The second-index scan over the first `k` positions. -/
def jGo (s : SmoState) (gm : ERat × ℤ) : ℕ → ERat × ℤ
  | 0 => (ERat.pinf, -1)
  | k + 1 => jStep s gm (jGo s gm k) k

/-- One step of the second-index scan of `select_working_set_nu`; pairing is
within-class (`gp` for positive targets, `gn` for negative ones), and a class
whose first index is absent is skipped (`continue` in the source). -/
def jNuStep (s : SmoState) (gp gn : ERat × ℤ) (acc : ERat × ℤ) (j : ℕ) : ERat × ℤ :=
  if s.targets j then
    if s.reachedLower j = false then
      let gradDiff := ERat.add gp.1 (ERat.fin (s.gradient j))
      if ERat.lt (ERat.fin 0) gradDiff then
        if gp.2 = -1 then acc
        else
          let i := gp.2.toNat
          let gd := ERat.toQ gradDiff
          let quadCoef := qsub (qadd (s.kernel i i) (s.kernel j j)) (qmul 2 (s.kernel i j))
          let objDiff := if 0 < quadCoef then qdiv (-(qmul gd gd)) quadCoef
            else qdiv (-(qmul gd gd)) (qq 1 10000000000)
          if ERat.le (ERat.fin objDiff) acc.1 then (ERat.fin objDiff, (j : ℤ)) else acc
      else acc
    else acc
  else
    if s.reachedUpper j = false then
      let gradDiff := ERat.sub gn.1 (ERat.fin (s.gradient j))
      if ERat.lt (ERat.fin 0) gradDiff then
        if gn.2 = -1 then acc
        else
          let i := gn.2.toNat
          let gd := ERat.toQ gradDiff
          let quadCoef := qsub (qadd (s.kernel i i) (s.kernel j j)) (qmul 2 (s.kernel i j))
          let objDiff := if 0 < quadCoef then qdiv (-(qmul gd gd)) quadCoef
            else qdiv (-(qmul gd gd)) (qq 1 10000000000)
          if ERat.le (ERat.fin objDiff) acc.1 then (ERat.fin objDiff, (j : ℤ)) else acc
      else acc
    else acc

/-- The ν second-index scan over the first `k` positions. -/
def jNuGo (s : SmoState) (gp gn : ERat × ℤ) : ℕ → ERat × ℤ
  | 0 => (ERat.pinf, -1)
  | k + 1 => jNuStep s gp gn (jNuGo s gp gn k) k

/-- The source's `select_working_set_nu`. -/
def selectWorkingSetNu (s : SmoState) : ℕ × ℕ × Bool :=
  let m := maxViolatingPairNu s
  let objDiffMin := jNuGo s m.g1 m.g2 s.nactive
  if ERat.lt (ERat.emax (ERat.add m.g1.1 m.g3.1) (ERat.add m.g2.1 m.g4.1)) (ERat.fin s.eps)
      ∨ objDiffMin.2 = -1 then
    (0, 0, true)
  else
    let outJ := objDiffMin.2.toNat
    ((if s.targets outJ then m.g1.2.toNat else m.g2.2.toNat), outJ, false)

/-- The source's `select_working_set`: returns `(i, j, optimal_flag)`. -/
def selectWorkingSet (s : SmoState) : ℕ × ℕ × Bool :=
  if s.nuConstraint then selectWorkingSetNu s
  else
    let mvp := maxViolatingPair s
    let gmax := mvp.1
    let gmax2 := mvp.2
    let objDiffMin := if gmax.2 ≠ -1 then jGo s gmax s.nactive else (ERat.pinf, -1)
    if ERat.lt (ERat.add gmax.1 gmax2.1) (ERat.fin s.eps) ∨ objDiffMin.2 = -1 then
      (0, 0, true)
    else
      (gmax.2.toNat, objDiffMin.2.toNat, false)

/-! ### Shrinking -/

/-- The source's `should_shrunk` predicate. -/
def shouldShrunk (s : SmoState) (i : ℕ) (gmax1 gmax2 : ERat) : Bool :=
  if s.reachedUpper i then
    if s.targets i then ERat.blt gmax1 (ERat.fin (-(s.gradient i)))
    else ERat.blt gmax2 (ERat.fin (-(s.gradient i)))
  else if s.reachedLower i then
    if s.targets i then ERat.blt gmax2 (ERat.fin (s.gradient i))
    else ERat.blt gmax1 (ERat.fin (-(s.gradient i)))
  else false

/-- The source's `should_shrunk_nu` predicate. -/
def shouldShrunkNu (s : SmoState) (i : ℕ) (gmax1 gmax2 gmax3 gmax4 : ERat) : Bool :=
  if s.reachedUpper i then
    if s.targets i then ERat.blt gmax1 (ERat.fin (-(s.gradient i)))
    else ERat.blt gmax4 (ERat.fin (-(s.gradient i)))
  else if s.reachedLower i then
    if s.targets i then ERat.blt gmax2 (ERat.fin (s.gradient i))
    else ERat.blt gmax3 (ERat.fin (s.gradient i))
  else false

/-! ### Gradient reconstruction -/

/-- The source's `reconstruct_gradient`.  Note that the first (row-major)
strategy guards the accumulation with `alpha[i].free_floating()` where `i` is
the OUTER (tail) index and sums `alpha[j]` over all active `j`, exactly as in
the source. -/
def reconstructGradient (s : SmoState) : SmoState :=
  if s.nactive = s.n then s
  else
    let g1 : ℕ → ℚ := fun k =>
      if s.nactive ≤ k ∧ k < s.n then qadd (s.gradientFixed k) (s.p k) else s.gradient k
    let nfree := ((List.range s.nactive).filter (fun x => s.freeFloating x)).length
    if 2 * s.nactive * (s.n - s.nactive) < nfree * s.n then
      { s with gradient := fun k =>
          if s.nactive ≤ k ∧ k < s.n ∧ s.freeFloating k = true then
            qadd (g1 k) (qsum ((List.range s.nactive).map
              (fun j => qmul (s.alphaVal j) (s.kernel k j))))
          else g1 k }
    else
      { s with gradient := fun k =>
          if s.nactive ≤ k ∧ k < s.n then
            qadd (g1 k) (qsum (((List.range s.nactive).filter
              (fun x => s.freeFloating x)).map
              (fun i0 => qmul (s.alphaVal i0) (s.kernel i0 k))))
          else g1 k }

/-- Inner while-loop of `do_shrinking`: scan the tail downward for a
non-shrinkable element to swap into position `i`. -/
def shrinkInner (gmax1 gmax2 : ERat) (i : ℕ) : ℕ → SmoState → SmoState
  | 0, s => s
  | fuel + 1, s =>
    if i < s.nactive then
      if s.shouldShrunk s.nactive gmax1 gmax2 = false then s.swap i s.nactive
      else shrinkInner gmax1 gmax2 i fuel { s with nactive := s.nactive - 1 }
    else s

/-- Body of the shrinking scan at position `i`. -/
def doShrinkingStep (gmax1 gmax2 : ERat) (s : SmoState) (i : ℕ) : SmoState :=
  if s.shouldShrunk i gmax1 gmax2 then
    let s1 : SmoState := { s with nactive := s.nactive - 1 }
    shrinkInner gmax1 gmax2 i s1.nactive s1
  else s

/-- Inner while-loop of `do_shrinking_nu`. -/
def shrinkInnerNu (g1 g2 g3 g4 : ERat) (i : ℕ) : ℕ → SmoState → SmoState
  | 0, s => s
  | fuel + 1, s =>
    if i < s.nactive then
      if s.shouldShrunkNu s.nactive g1 g2 g3 g4 = false then s.swap i s.nactive
      else shrinkInnerNu g1 g2 g3 g4 i fuel { s with nactive := s.nactive - 1 }
    else s

/-- Body of the ν shrinking scan at position `i`. -/
def doShrinkingStepNu (g1 g2 g3 g4 : ERat) (s : SmoState) (i : ℕ) : SmoState :=
  if s.shouldShrunkNu i g1 g2 g3 g4 then
    let s1 : SmoState := { s with nactive := s.nactive - 1 }
    shrinkInnerNu g1 g2 g3 g4 i s1.nactive s1
  else s

/-- The source's `do_shrinking_nu`. -/
def doShrinkingNu (s : SmoState) : SmoState :=
  let m := maxViolatingPairNu s
  let g1 := m.g1.1
  let g2 := m.g2.1
  let g3 := m.g3.1
  let g4 := m.g4.1
  let s1 :=
    if s.unshrink = false ∧
        ERat.ble (ERat.emax (ERat.add g1 g2) (ERat.add g3 g4)) (ERat.fin (qmul s.eps 10)) then
      let sr := reconstructGradient { s with unshrink := true }
      { sr with nactive := sr.n }
    else s
  (List.range s1.nactive).foldl (doShrinkingStepNu g1 g2 g3 g4) s1

/-- The source's `do_shrinking`.  The range of the outer scan is fixed at
entry (`for i in 0..self.nactive()` evaluates the range once), while the
body mutates `nactive`. -/
def doShrinking (s : SmoState) : SmoState :=
  if s.nuConstraint then doShrinkingNu s
  else
    let mvp := maxViolatingPair s
    let gmax1 := mvp.1.1
    let gmax2 := mvp.2.1
    let s1 :=
      if s.unshrink = false ∧
          ERat.ble (ERat.add gmax1 gmax2) (ERat.fin (qmul s.eps 10)) then
        let sr := reconstructGradient { s with unshrink := true }
        { sr with nactive := sr.n }
      else s
    (List.range s1.nactive).foldl (doShrinkingStep gmax1 gmax2) s1

/-! ### Rho computation -/

/-- One step of the fold of `calculate_rho`:
accumulator `(nfree, sum_free, ub, lb)`. -/
def rhoStep (s : SmoState) (acc : ℕ × ℚ × ERat × ERat) (i : ℕ) : ℕ × ℚ × ERat × ERat :=
  let yg := qmul (s.target i) (s.gradient i)
  if s.reachedUpper i then
    if s.targets i then (acc.1, acc.2.1, acc.2.2.1, ERat.emax acc.2.2.2 (ERat.fin yg))
    else (acc.1, acc.2.1, ERat.emin acc.2.2.1 (ERat.fin yg), acc.2.2.2)
  else if s.reachedLower i then
    if s.targets i then (acc.1, acc.2.1, ERat.emin acc.2.2.1 (ERat.fin yg), acc.2.2.2)
    else (acc.1, acc.2.1, acc.2.2.1, ERat.emax acc.2.2.2 (ERat.fin yg))
  else (acc.1 + 1, qadd acc.2.1 yg, acc.2.2.1, acc.2.2.2)

/-- The source's `calculate_rho` (standard constraint). -/
def calculateRhoStd (s : SmoState) : ERat :=
  let acc := (List.range s.nactive).foldl (rhoStep s) (0, 0, ERat.pinf, ERat.ninf)
  if 0 < acc.1 then ERat.fin (qdiv acc.2.1 (qnat acc.1))
  else ERat.half (ERat.add acc.2.2.1 acc.2.2.2)

/-- Accumulator of `calculate_rho_nu`: per-class free counts, free sums
and brackets. -/
structure RhoNuAcc where
  nfree1 : ℕ
  sumFree1 : ℚ
  ub1 : ERat
  lb1 : ERat
  nfree2 : ℕ
  sumFree2 : ℚ
  ub2 : ERat
  lb2 : ERat

/-- One step of the fold of `calculate_rho_nu`.  NOTE: the source tightens
the upper brackets with `A::max` (lines 728 and 739), so starting from
`+∞` they never move; this is mirrored here exactly. -/
def rhoNuStep (s : SmoState) (acc : RhoNuAcc) (i : ℕ) : RhoNuAcc :=
  let acc1 :=
    if s.targets i then
      if s.reachedUpper i then { acc with lb1 := ERat.emax acc.lb1 (ERat.fin (s.gradient i)) }
      else if s.reachedLower i then { acc with ub1 := ERat.emax acc.ub1 (ERat.fin (s.gradient i)) }
      else { acc with nfree1 := acc.nfree1 + 1, sumFree1 := qadd acc.sumFree1 (s.gradient i) }
    else acc
  if s.targets i = false then
    if s.reachedUpper i then { acc1 with lb2 := ERat.emax acc1.lb2 (ERat.fin (s.gradient i)) }
    else if s.reachedLower i then { acc1 with ub2 := ERat.emax acc1.ub2 (ERat.fin (s.gradient i)) }
    else { acc1 with nfree2 := acc1.nfree2 + 1, sumFree2 := qadd acc1.sumFree2 (s.gradient i) }
  else acc1

/-- The source's `calculate_rho_nu`: returns the bias and the state with the
ν-residual `r` stored. -/
def calculateRhoNu (s : SmoState) : ERat × SmoState :=
  let a := (List.range s.nactive).foldl (rhoNuStep s)
    ⟨0, 0, ERat.pinf, ERat.ninf, 0, 0, ERat.pinf, ERat.ninf⟩
  let r1 := if 0 < a.nfree1 then ERat.fin (qdiv a.sumFree1 (qnat a.nfree1))
    else ERat.half (ERat.add a.ub1 a.lb1)
  let r2 := if 0 < a.nfree2 then ERat.fin (qdiv a.sumFree2 (qnat a.nfree2))
    else ERat.half (ERat.add a.ub2 a.lb2)
  (ERat.half (ERat.sub r1 r2), { s with r := ERat.half (ERat.add r1 r2) })

/-- Modelled from the spec wording of C6: the same per-class computation as
`calculate_rho_nu` but with the per-coordinate bracket updates of the
standard `calculate_rho`, i.e. the upper bracket of a class member at the
lower bound is tightened with the MINIMUM of the gradient values.  This is
the comparator the claim asserts the source implements. -/
def rhoNuStepClaim (s : SmoState) (acc : RhoNuAcc) (i : ℕ) : RhoNuAcc :=
  let acc1 :=
    if s.targets i then
      if s.reachedUpper i then { acc with lb1 := ERat.emax acc.lb1 (ERat.fin (s.gradient i)) }
      else if s.reachedLower i then { acc with ub1 := ERat.emin acc.ub1 (ERat.fin (s.gradient i)) }
      else { acc with nfree1 := acc.nfree1 + 1, sumFree1 := qadd acc.sumFree1 (s.gradient i) }
    else acc
  if s.targets i = false then
    if s.reachedUpper i then { acc1 with lb2 := ERat.emax acc1.lb2 (ERat.fin (s.gradient i)) }
    else if s.reachedLower i then { acc1 with ub2 := ERat.emin acc1.ub2 (ERat.fin (s.gradient i)) }
    else { acc1 with nfree2 := acc1.nfree2 + 1, sumFree2 := qadd acc1.sumFree2 (s.gradient i) }
  else acc1

/-- The value `calculate_rho_nu` would return with `min`-tightened upper
brackets (the computation the claim describes). -/
def calculateRhoNuClaim (s : SmoState) : ERat :=
  let a := (List.range s.nactive).foldl (rhoNuStepClaim s)
    ⟨0, 0, ERat.pinf, ERat.ninf, 0, 0, ERat.pinf, ERat.ninf⟩
  let r1 := if 0 < a.nfree1 then ERat.fin (qdiv a.sumFree1 (qnat a.nfree1))
    else ERat.half (ERat.add a.ub1 a.lb1)
  let r2 := if 0 < a.nfree2 then ERat.fin (qdiv a.sumFree2 (qnat a.nfree2))
    else ERat.half (ERat.add a.ub2 a.lb2)
  ERat.half (ERat.sub r1 r2)

/-- The source's `calculate_rho` dispatcher. -/
def calculateRho (s : SmoState) : ERat × SmoState :=
  if s.nuConstraint then calculateRhoNu s else (calculateRhoStd s, s)

/-! ### The main loop of `solve` -/

/-- Exit reason of `solve`. -/
inductive ExitReason where
  | ReachedThreshold : ExitReason
  | ReachedIterations : ExitReason
deriving DecidableEq

/-- Counter handling at the top of each loop iteration: decrement; on zero,
reset to `min(ntotal, 1000)` and run `do_shrinking` when enabled. -/
def shrinkPhase (counter : ℕ) (s : SmoState) : SmoState × ℕ :=
  if counter - 1 = 0 then ((if s.shrinking then doShrinking s else s), min s.n 1000)
  else (s, counter - 1)

/-- The body of one iteration of the while-loop of `solve`: counter phase,
working-set selection; on an optimal flag reconstruct the gradient and
re-select (breaking if still optimal, else forcing the counter to 1), and
otherwise update and continue through `ih`. -/
def solveStep (ih : ℕ → SmoState → SmoState × ℕ × Bool) (counter : ℕ) (s : SmoState) :
    SmoState × ℕ × Bool :=
  let sc := shrinkPhase counter s
  let s1 := sc.1
  let sel := selectWorkingSet s1
  if sel.2.2 then
    let s2 := reconstructGradient s1
    let sel2 := selectWorkingSet s2
    if sel2.2.2 then (s2, 0, true)
    else
      let res := ih 1 (update s2 sel2.1 sel2.2.1)
      (res.1, res.2.1 + 1, res.2.2)
  else
    let res := ih sc.2 (update s1 sel.1 sel.2.1)
    (res.1, res.2.1 + 1, res.2.2)

/-- The while-loop of `solve`, with the remaining iteration budget as
structural fuel.  Returns `(state, iterations used, broke-early)`.
Written with a bare `Nat.rec` so concrete runs unfold one loop
iteration per peeled successor. -/
def solveLoop (fuel : ℕ) : ℕ → SmoState → SmoState × ℕ × Bool :=
  Nat.rec (motive := fun _ => ℕ → SmoState → SmoState × ℕ × Bool)
    (fun _ s => (s, 0, false))
    (fun _ ih => solveStep ih)
    fuel

/-- The iteration budget `max(10_000_000, 100 * n)` of `solve` (the
`usize::MAX` saturation guard of the source cannot trigger for `ℕ`). -/
def maxIterOf (s : SmoState) : ℕ := max 10000000 (100 * s.n)

/-- Running the main loop of `solve` with its initial counter
`min(n, 1000) + 1`. -/
def solveRaw (s0 : SmoState) : SmoState × ℕ × Bool :=
  solveLoop (maxIterOf s0) (min s0.n 1000 + 1) s0

/-- The state after the loop and the post-loop restoration
(`if iter >= max_iter && nactive < n { reconstruct; nactive = n }`). -/
def solvePost (s0 : SmoState) : SmoState :=
  let res := solveRaw s0
  if maxIterOf s0 ≤ res.2.1 ∧ res.1.nactive < res.1.n then
    let s1 := reconstructGradient res.1
    { s1 with nactive := s1.n }
  else res.1

/-- The exit reason of `solve`:
`ReachedIterations` iff `iter == max_iter`. -/
def exitReasonOf (s0 : SmoState) : ExitReason :=
  if (solveRaw s0).2.1 = maxIterOf s0 then ExitReason.ReachedIterations
  else ExitReason.ReachedThreshold

/-- The final state of `solve` (after the rho computation, which for the
ν variant stores the residual `r`). -/
def solveFinalState (s0 : SmoState) : SmoState := (calculateRho (solvePost s0)).2

/-- The returned bias `rho`. -/
def solveRho (s0 : SmoState) : ERat := (calculateRho (solvePost s0)).1

/-- The returned objective value `1/2 * Σ alpha_i * (gradient_i + p_i)`. -/
def solveObj (s0 : SmoState) : ℚ :=
  let s := solveFinalState s0
  qdiv (qsum ((List.range s.n).map (fun i => qmul (s.alphaVal i) (qadd (s.gradient i) (s.p i))))) 2

/-- The returned alpha vector (`putBack` applied to the final state). -/
def solveOutputAlpha (s0 : SmoState) : List ℚ := (solveFinalState s0).putBack

/-- The projection of the state that working-set selection semantics and the
stopping tolerance depend on and the loop never changes. -/
def coreParams (s : SmoState) : Bool × ℚ := (s.nuConstraint, s.eps)

/-- A running maximum of `max_violating_pair` is either the untouched seed
`(-∞, -1)` or a finite value with a genuine index. -/
def gmaxInv (p : ERat × ℤ) : Prop :=
  (p.1 = ERat.ninf ∧ p.2 = -1) ∨ (∃ q, p.1 = ERat.fin q ∧ p.2 ≠ -1)

/-- The membership-and-progress condition under which `select_working_set`
would accept `j` as second index. -/
def jCondStd (s : SmoState) (gm : ERat × ℤ) (j : ℕ) : Prop :=
  (s.targets j = true ∧ s.reachedLower j = false ∧
    ERat.lt (ERat.fin 0) (ERat.add gm.1 (ERat.fin (s.gradient j)))) ∨
  (s.targets j = false ∧ s.reachedUpper j = false ∧
    ERat.lt (ERat.fin 0) (ERat.sub gm.1 (ERat.fin (s.gradient j))))

end SmoState

/-! ### Concrete solver states used as failing inputs -/

open SmoState

/-- A 3-variable state with distinct alpha values, identity permutation. -/
def c1State : SmoState where
  n := 3
  gradient := fun _ => 0
  gradientFixed := fun _ => 0
  alphaVal := fun k => [(10 : ℚ), 20, 30].getD k 0
  alphaUB := fun _ => 100
  p := fun _ => 0
  targets := fun _ => true
  bounds := fun _ => 100
  activeSet := fun k => k
  nactive := 3
  unshrink := false
  nuConstraint := false
  r := ERat.fin 0
  kernel := fun a b => if a = b then 1 else 0
  eps := qq 1 1000000
  shrinking := true

/-- The state after the swap sequence `(0,2); (0,1)` — a composition of two
transpositions that shrinking can perform across two `do_shrinking` passes,
whose product is not an involution (`active_set = [1, 2, 0]`). -/
def c1Swapped : SmoState := SmoState.swap (SmoState.swap c1State 0 2) 0 1

/-- A 2-variable state with distinct per-coordinate bounds `[5, 1]`,
box-feasible alphas `[4.5, 0.9]`, both targets positive. -/
def c4State : SmoState where
  n := 2
  gradient := fun k => [(0 : ℚ), -4].getD k 0
  gradientFixed := fun _ => 0
  alphaVal := fun k => [qq 9 2, qq 9 10].getD k 0
  alphaUB := fun k => [(5 : ℚ), 1].getD k 0
  p := fun _ => 0
  targets := fun _ => true
  bounds := fun k => [(5 : ℚ), 1].getD k 0
  activeSet := fun k => k
  nactive := 2
  unshrink := false
  nuConstraint := false
  r := ERat.fin 0
  kernel := fun a b => if a = b then 1 else 0
  eps := qq 1 1000000
  shrinking := true

/-- The state after a shrinking swap of positions 0 and 1 followed by an
`update` on the working set `(0, 1)`. -/
def c4Updated : SmoState := SmoState.update (SmoState.swap c4State 0 1) 0 1

/-- A 2-variable state with position 1 shrunk (`nactive = 1`): the active
prefix is optimal (its `I_low` is empty), but the full variable set still
contains the violating pair `(0, 1)`. -/
def c2State : SmoState where
  n := 2
  gradient := fun k => [(5 : ℚ), -7].getD k 0
  gradientFixed := fun _ => 0
  alphaVal := fun _ => 0
  alphaUB := fun _ => 1
  p := fun k => [(0 : ℚ), -7].getD k 0
  targets := fun k => k = 0
  bounds := fun _ => 1
  activeSet := fun k => k
  nactive := 1
  unshrink := false
  nuConstraint := false
  r := ERat.fin 0
  kernel := fun a b => if a = b then 1 else 0
  eps := qq 1 1000000
  shrinking := true

/-- A 4-variable ν state: the positive class has two free variables, the
negative class one variable at the upper bound (gradient 5) and one at the
lower bound (gradient 7). -/
def c6State : SmoState where
  n := 4
  gradient := fun k => [(2 : ℚ), 4, 5, 7].getD k 0
  gradientFixed := fun _ => 0
  alphaVal := fun k => [qq 1 2, qq 1 2, 1, 0].getD k 0
  alphaUB := fun _ => 1
  p := fun _ => 0
  targets := fun k => k < 2
  bounds := fun _ => 1
  activeSet := fun k => k
  nactive := 4
  unshrink := false
  nuConstraint := true
  r := ERat.fin 0
  kernel := fun a b => if a = b then 1 else 0
  eps := qq 1 1000000
  shrinking := false

/-- The two-point toy problem `y = [+1, -1]`, `K = I`, `C = [1, 1]`,
`p = g = [-1, -1]`, all alphas at zero. -/
def c5State : SmoState where
  n := 2
  gradient := fun _ => -1
  gradientFixed := fun _ => 0
  alphaVal := fun _ => 0
  alphaUB := fun _ => 1
  p := fun _ => -1
  targets := fun k => k = 0
  bounds := fun _ => 1
  activeSet := fun k => k
  nactive := 2
  unshrink := false
  nuConstraint := false
  r := ERat.fin 0
  kernel := fun a b => if a = b then 1 else 0
  eps := qq 1 1000000
  shrinking := false

/-- The state after `update (0, 1)` on `c5State`; both alphas move from 0 to
their upper bound 1. -/
def c5Updated : SmoState := SmoState.update c5State 0 1

/-! ### Gaussian Naive Bayes (`gaussian_nb.rs`)

A dataset is a list of feature rows plus integer class labels.  The per-class
map `GaussianNb::class_info : HashMap<usize, ClassInfo>` is modelled as an
association list with unique keys; iterating classes in sorted order is an
order-canonicalisation of the per-class loop (each class is processed exactly
once and the resulting map does not depend on the order).  The HashMap
iteration order of `predict`, which in Rust is nondeterministic, is modelled
by an explicit `order` parameter. -/

structure GDataset where
  records : List (List ℚ)
  targets : List ℕ
deriving DecidableEq

inductive GnbError where
  | emptyInput : GnbError
deriving DecidableEq

structure ClassInfo where
  classCount : ℕ
  prior : ℚ
  theta : List ℚ
  sigma : List ℚ
deriving DecidableEq

/-- The `Default` instance of `ClassInfo` (zero count, empty arrays). -/
def ClassInfo.default : ClassInfo := ⟨0, 0, [], []⟩

/-- The fitted model: an association list from class label to `ClassInfo`. -/
def GnbModel : Type := List (ℕ × ClassInfo)

namespace Gnb

/-- Per-feature sum of a column (features indexed into possibly-ragged rows
with default 0; well-formedness hypotheses keep rows rectangular). -/
def featSum (rows : List (List ℚ)) (f : ℕ) : ℚ := qsum (rows.map (fun r => r.getD f 0))

/-- Column mean (`mean_axis(Axis(0))`). -/
def featMean (rows : List (List ℚ)) (f : ℕ) : ℚ :=
  qdiv (featSum rows f) (qnat rows.length)

/-- Column population variance (`var_axis(Axis(0), 0)`). -/
def featVar (rows : List (List ℚ)) (f : ℕ) : ℚ :=
  qdiv (qsum (rows.map (fun r =>
    qmul (qsub (r.getD f 0) (featMean rows f)) (qsub (r.getD f 0) (featMean rows f)))))
    (qnat rows.length)

/-- All column means. -/
def colMeans (F : ℕ) (rows : List (List ℚ)) : List ℚ := (List.range F).map (featMean rows)

/-- All column variances. -/
def colVars (F : ℕ) (rows : List (List ℚ)) : List ℚ := (List.range F).map (featVar rows)

/-- The number of feature columns of a dataset. -/
def ncols (d : GDataset) : ℕ := (d.records.headD []).length

/-- The `x.var_axis(Axis(0), 0).max()?` step: `none` models the error case
(the matrix is empty, or the fold over an empty/NaN variance array fails). -/
def maxFeatureVariance (d : GDataset) : Option ℚ :=
  if d.records.isEmpty then none
  else (colVars (ncols d) d.records).max?

/-- The records of a dataset whose label equals `c`, in row order
(`GaussianNbParams::filter`). -/
def rowsOf (c : ℕ) (d : GDataset) : List (List ℚ) :=
  ((d.records.zip d.targets).filter (fun pr => pr.2 == c)).map Prod.fst

/-- The Welford-style batch merge (`update_mean_variance`). -/
def updateMeanVariance (countOld : ℕ) (muOld varOld : List ℚ)
    (xNew : List (List ℚ)) (F : ℕ) : List ℚ × List ℚ :=
  if xNew.length = 0 then (muOld, varOld)
  else
    let countNew := xNew.length
    let muNew := colMeans F xNew
    let varNew := colVars F xNew
    if countOld = 0 then (muNew, varNew)
    else
      let countTotal := countOld + countNew
      let muNewW := muNew.map (fun x => qmul x (qnat countNew))
      let muOldW := muOld.map (fun x => qmul x (qnat countOld))
      let muW := (List.zipWith qadd muNewW muOldW).map (fun x => qdiv x (qnat countTotal))
      let ssdOld := varOld.map (fun x => qmul x (qnat countOld))
      let ssdNew := varNew.map (fun x => qmul x (qnat countNew))
      let weight := qdiv (qnat (countNew * countOld)) (qnat countTotal)
      let diffSq := (List.zipWith qsub muOld muNew).map (fun x => qmul weight (qmul x x))
      let ssdW := List.zipWith qadd (List.zipWith qadd ssdOld ssdNew) diffSq
      let varW := ssdW.map (fun x => qdiv x (qnat countTotal))
      (muW, varW)

/-- Association-list lookup or the `Default` info (the map half of the
`entry(class).or_insert_with(default)` call). -/
def infoOf (m : GnbModel) (c : ℕ) : ClassInfo := (List.lookup c m).getD ClassInfo.default

/-- Store an entry: replace in place, or append a fresh key. -/
def setEntry (m : GnbModel) (c : ℕ) (info : ClassInfo) : GnbModel :=
  match m with
  | [] => [(c, info)]
  | (k, v) :: rest => if k = c then (c, info) :: rest else (k, v) :: setEntry rest c info

/-- The body of the per-class loop of `fit_with`. -/
def processClass (d : GDataset) (F : ℕ) (m : GnbModel) (c : ℕ) : GnbModel :=
  let xclass := rowsOf c d
  let nclass := xclass.length
  let info := infoOf m c
  let tv := updateMeanVariance info.classCount info.theta info.sigma xclass F
  setEntry m c { info with theta := tv.1, sigma := tv.2, classCount := info.classCount + nclass }

/-- Apply a function to every class's sigma vector (the epsilon
subtraction/addition loops of `fit_with`). -/
def mapSigma (f : ℚ → ℚ) (m : GnbModel) : GnbModel :=
  m.map (fun kv => (kv.1, { kv.2 with sigma := kv.2.sigma.map f }))

/-- Total class count over the map. -/
def sumCounts (m : GnbModel) : ℕ := (m.map (fun kv => kv.2.classCount)).sum

/-- Recompute `prior = class_count / Σ class_count` for every class. -/
def updatePriors (m : GnbModel) : GnbModel :=
  let tot := sumCounts m
  m.map (fun kv => (kv.1, { kv.2 with prior := qdiv (qnat kv.2.classCount) (qnat tot) }))

/-- The unique labels of a batch, in sorted order (order-canonical model of
the per-class iteration). -/
def sortedDedup (l : List ℕ) : List ℕ := (l.dedup).insertionSort (· ≤ ·)

/-- The shared body of `fit_with` once a prior model (possibly empty) is in
hand: compute the batch smoothing `epsilon`, subtract it from every sigma,
merge every class present in the batch, add `epsilon` back, recompute
priors. -/
def fitWithGo (vs : ℚ) (m0 : GnbModel) (d : GDataset) : Except GnbError GnbModel :=
  match maxFeatureVariance d with
  | none => Except.error GnbError.emptyInput
  | some mv =>
    let eps := qmul vs mv
    let m1 := mapSigma (fun x => qsub x eps) m0
    let m2 := (sortedDedup d.targets).foldl (processClass d (ncols d)) m1
    let m3 := mapSigma (fun x => qadd x eps) m2
    Except.ok (updatePriors m3)

/-- The source's `fit_with` (`vs` is the `var_smoothing` parameter): a prior
error propagates unchanged before any fitting work. -/
def fitWith (vs : ℚ) (prev : Option (Except GnbError GnbModel)) (d : GDataset) :
    Except GnbError GnbModel :=
  match prev with
  | some (Except.error e) => Except.error e
  | some (Except.ok m) => fitWithGo vs m d
  | none => fitWithGo vs [] d

/-- The source's `fit`: sorts the unique class labels (dead work, the result
is unused) and delegates to `fit_with(None, dataset)`. -/
def fit (vs : ℚ) (d : GDataset) : Except GnbError GnbModel :=
  let uniqueClasses := sortedDedup d.targets
  fitWith vs none d

/-- The joint log-likelihood of one row for one class
(`joint_log_likelihood`), parameterized by the logarithm function `lnf` and
the constant `twoPi` (the embedding keeps transcendental quantities
abstract). -/
def jllValue (lnf : ℚ → ℚ) (twoPi : ℚ) (info : ClassInfo) (row : List ℚ) : ℚ :=
  let jointi := lnf info.prior
  let nij := qmul (qq (-1) 2) (qsum (info.sigma.map (fun x => lnf (qmul twoPi x))))
  let quad := qmul (qq 1 2) (qsum (List.zipWith
    (fun xv pr => qdiv (qmul (qsub xv pr.1) (qsub xv pr.1)) pr.2)
    row (info.theta.zip info.sigma)))
  qadd (qsub nij quad) jointi

/-- First index of the maximum of a list (later elements replace only on
strict improvement, matching `argmax`). -/
def argmaxGo : List ℚ → ℕ → ℚ × ℕ → ℚ × ℕ
  | [], _, acc => acc
  | v :: rest, idx, acc => argmaxGo rest (idx + 1) (if acc.1 < v then (v, idx) else acc)

/-- Index of the first maximal element (`ndarray-stats argmax`). -/
def argmaxIdx : List ℚ → ℕ
  | [] => 0
  | v :: rest => (argmaxGo rest 1 (v, 0)).2

/-- The source's `predict`, with the HashMap iteration order of
`joint_log_likelihood` made explicit as `order`: the class rows of the
likelihood matrix follow `order`, and for every input row the class at the
argmax row index is returned. -/
def predictWithOrder (lnf : ℚ → ℚ) (twoPi : ℚ) (m : GnbModel) (order : List ℕ)
    (x : List (List ℚ)) : List ℕ :=
  (List.range x.length).map (fun t =>
    let col := order.map (fun c => jllValue lnf twoPi (infoOf m c) (x.getD t []))
    order.getD (argmaxIdx col) 0)

/-! ### Dataset combinators and partition reasoning (supporting C7) -/

/-- Concatenation of two datasets (rows and labels in order). -/
def appendD (a b : GDataset) : GDataset := ⟨a.records ++ b.records, a.targets ++ b.targets⟩

/-- The empty dataset. -/
def emptyD : GDataset := ⟨[], []⟩

/-- Concatenation of a partition into one dataset. -/
def concatD : List GDataset → GDataset
  | [] => emptyD
  | d :: rest => appendD d (concatD rest)

/-- Records and labels have matching lengths. -/
def DAligned (d : GDataset) : Prop := d.records.length = d.targets.length

/-- A well-formed nonempty batch with rectangular rows of width `F`. -/
def WfBatch (F : ℕ) (d : GDataset) : Prop :=
  d.records ≠ [] ∧ DAligned d ∧ ∀ r ∈ d.records, r.length = F

instance (F : ℕ) (d : GDataset) : Decidable (WfBatch F d) := by
  unfold WfBatch DAligned
  infer_instance

/-- Folding `fit_with` over the batches of a partition, starting from
`None`. -/
def foldFit (vs : ℚ) (ds : List GDataset) : Option (Except GnbError GnbModel) :=
  ds.foldl (fun acc d => some (fitWith vs acc d)) none

/-- The count-and-theta view of a model entry. -/
def entryStat (m : GnbModel) (c : ℕ) : Option (ℕ × List ℚ) :=
  (List.lookup c m).map (fun i => (i.classCount, i.theta))

/-- The reference statistic of a class in a dataset: its row count and
per-feature means, absent when the class does not occur. -/
def classStat (F : ℕ) (D : GDataset) (c : ℕ) : Option (ℕ × List ℚ) :=
  if rowsOf c D = [] then none else some ((rowsOf c D).length, colMeans F (rowsOf c D))

/-- Invariant during the per-class fold of `fit_with`: pending classes still
carry the statistics of the old data `D`, finished classes those of the
extended data `D ++ b`. -/
def FoldInv (F : ℕ) (D b : GDataset) (pending : List ℕ) (m : GnbModel) : Prop :=
  (m.map Prod.fst).Nodup ∧
  ∀ c, (c ∈ pending → entryStat m c = classStat F D c) ∧
    (c ∉ pending → entryStat m c = classStat F (appendD D b) c)

end Gnb

/-- A fitted model with two classes carrying identical statistics: any joint
log-likelihood computation gives a tie. -/
def c8Model : GnbModel := [(1, ⟨3, qq 1 2, [1], [1]⟩), (2, ⟨3, qq 1 2, [1], [1]⟩)]

/-- The default smoothing ratio `1e-9`. -/
def c7vs : ℚ := qq 1 1000000000

/-- First batch: one row of class 0 (batch feature variance 0). -/
def c7Batch1 : GDataset := ⟨[[0]], [0]⟩

/-- Second batch: another class-0 row plus two far-apart class-1 rows
(large batch feature variance, hence large batch epsilon). -/
def c7Batch2 : GDataset := ⟨[[0], [1000000], [-1000000]], [0, 1, 1]⟩

/-- The whole dataset (concatenation of the two batches, in order). -/
def c7Whole : GDataset := ⟨[[0], [0], [1000000], [-1000000]], [0, 0, 1, 1]⟩

/-- Folding `fit_with` over the two batches starting from `None`. -/
def c7FoldResult : Except GnbError GnbModel :=
  Gnb.fitWith c7vs (some (Gnb.fitWith c7vs none c7Batch1)) c7Batch2

/-- A single `fit` over the whole dataset. -/
def c7WholeResult : Except GnbError GnbModel := Gnb.fit c7vs c7Whole

/-- The sigma vector of a class of a fit result (empty on error). -/
def c7SigmaOf (r : Except GnbError GnbModel) (c : ℕ) : List ℚ :=
  match r with
  | Except.ok m => (Gnb.infoOf m c).sigma
  | Except.error _ => []

/-! ### Theorems -/

theorem qq_eq (n d : ℤ) : qq n d = (n : ℚ) / (d : ℚ) := by
  simp [qq, Rat.divInt_eq_div]

theorem qadd_eq (a b : ℚ) : qadd a b = a + b := by
  have had : ((a.den : ℚ)) ≠ 0 := by exact_mod_cast a.den_nz
  have hbd : ((b.den : ℚ)) ≠ 0 := by exact_mod_cast b.den_nz
  have hA : (a.num : ℚ) = a * (a.den : ℚ) := (div_eq_iff had).mp (Rat.num_div_den a)
  have hB : (b.num : ℚ) = b * (b.den : ℚ) := (div_eq_iff hbd).mp (Rat.num_div_den b)
  rw [qadd, Rat.divInt_eq_div]
  push_cast
  rw [hA, hB, div_eq_iff (mul_ne_zero had hbd)]
  ring

theorem qmul_eq (a b : ℚ) : qmul a b = a * b := by
  have had : ((a.den : ℚ)) ≠ 0 := by exact_mod_cast a.den_nz
  have hbd : ((b.den : ℚ)) ≠ 0 := by exact_mod_cast b.den_nz
  have hA : (a.num : ℚ) = a * (a.den : ℚ) := (div_eq_iff had).mp (Rat.num_div_den a)
  have hB : (b.num : ℚ) = b * (b.den : ℚ) := (div_eq_iff hbd).mp (Rat.num_div_den b)
  rw [qmul, Rat.divInt_eq_div]
  push_cast
  rw [hA, hB, div_eq_iff (mul_ne_zero had hbd)]
  ring

theorem qdiv_eq (a b : ℚ) : qdiv a b = a / b := by
  by_cases hb : b = 0
  · subst hb
    simp [qdiv, Rat.divInt_eq_div]
  · have hbn : (b.num : ℚ) ≠ 0 := by exact_mod_cast Rat.num_ne_zero.mpr hb
    have had : ((a.den : ℚ)) ≠ 0 := by exact_mod_cast a.den_nz
    have hbd : ((b.den : ℚ)) ≠ 0 := by exact_mod_cast b.den_nz
    have hA : (a.num : ℚ) = a * (a.den : ℚ) := (div_eq_iff had).mp (Rat.num_div_den a)
    have hB : (b.num : ℚ) = b * (b.den : ℚ) := (div_eq_iff hbd).mp (Rat.num_div_den b)
    rw [qdiv, Rat.divInt_eq_div]
    push_cast
    rw [hA, hB, div_eq_div_iff (mul_ne_zero had (by exact mul_ne_zero hb hbd)) hb]
    ring

theorem qsub_eq (a b : ℚ) : qsub a b = a - b := by
  rw [qsub, qadd_eq]; ring

theorem qsum_eq (l : List ℚ) : qsum l = l.sum := by
  induction l with
  | nil => rfl
  | cons x xs ih => simp [qsum, List.foldr] at ih ⊢; rw [qadd_eq, ih]

theorem qnat_eq (n : ℕ) : qnat n = (n : ℚ) := by
  simp [qnat, Rat.divInt_eq_div]

namespace ERat

theorem lt_fin_fin (a b : ℚ) : lt (fin a) (fin b) ↔ a < b := by
  simp [lt, blt]

theorem le_fin_fin (a b : ℚ) : le (fin a) (fin b) ↔ a ≤ b := by
  simp [le, ble, blt]

theorem ninf_lt_fin (a : ℚ) : lt ninf (fin a) := by simp [lt, blt]

theorem le_fin_cases (x : ERat) (c : ℚ) (h : le x (fin c)) :
    x = ninf ∨ ∃ q, x = fin q ∧ q ≤ c := by
  cases x with
  | ninf => exact Or.inl rfl
  | fin q => exact Or.inr ⟨q, rfl, (le_fin_fin q c).mp h⟩
  | pinf => simp [le, ble, blt] at h

theorem add_fin_fin (a b : ℚ) : add (fin a) (fin b) = fin (qadd a b) := rfl

theorem add_ninf_right (a : ℚ) : add (fin a) ninf = ninf := rfl

end ERat

/-! ### Lemmas about the main loop (supporting C3) -/

namespace SmoState

theorem solveLoop_zero (c : ℕ) (s : SmoState) : solveLoop 0 c s = (s, 0, false) := rfl

theorem solveLoop_succ (f c : ℕ) (s : SmoState) :
    solveLoop (f + 1) c s = solveStep (solveLoop f) c s := rfl

theorem coreParams_swap (s : SmoState) (i j : ℕ) : coreParams (s.swap i j) = coreParams s := rfl

theorem coreParams_update (s : SmoState) (i j : ℕ) :
    coreParams (update s i j) = coreParams s := rfl

theorem coreParams_reconstruct (s : SmoState) :
    coreParams (reconstructGradient s) = coreParams s := by
  unfold reconstructGradient
  split
  · rfl
  · dsimp only
    split <;> rfl

theorem coreParams_shrinkInner (g1 g2 : ERat) (i : ℕ) :
    ∀ fuel s, coreParams (shrinkInner g1 g2 i fuel s) = coreParams s := by
  intro fuel
  induction fuel with
  | zero => intro s; rfl
  | succ f ih =>
    intro s
    unfold shrinkInner
    split
    · split
      · exact coreParams_swap s i s.nactive
      · exact ih _
    · rfl

theorem coreParams_doShrinkingStep (g1 g2 : ERat) (s : SmoState) (i : ℕ) :
    coreParams (doShrinkingStep g1 g2 s i) = coreParams s := by
  unfold doShrinkingStep
  split
  · exact coreParams_shrinkInner g1 g2 i _ _
  · rfl

theorem coreParams_shrinkInnerNu (g1 g2 g3 g4 : ERat) (i : ℕ) :
    ∀ fuel s, coreParams (shrinkInnerNu g1 g2 g3 g4 i fuel s) = coreParams s := by
  intro fuel
  induction fuel with
  | zero => intro s; rfl
  | succ f ih =>
    intro s
    unfold shrinkInnerNu
    split
    · split
      · exact coreParams_swap s i s.nactive
      · exact ih _
    · rfl

theorem coreParams_doShrinkingStepNu (g1 g2 g3 g4 : ERat) (s : SmoState) (i : ℕ) :
    coreParams (doShrinkingStepNu g1 g2 g3 g4 s i) = coreParams s := by
  unfold doShrinkingStepNu
  split
  · exact coreParams_shrinkInnerNu g1 g2 g3 g4 i _ _
  · rfl

theorem coreParams_foldl {step : SmoState → ℕ → SmoState}
    (h : ∀ s i, coreParams (step s i) = coreParams s) :
    ∀ (l : List ℕ) (s : SmoState), coreParams (l.foldl step s) = coreParams s := by
  intro l
  induction l with
  | nil => intro s; rfl
  | cons x xs ih => intro s; rw [List.foldl_cons, ih, h]

theorem coreParams_doShrinking (s : SmoState) : coreParams (doShrinking s) = coreParams s := by
  unfold doShrinking
  split
  · unfold doShrinkingNu
    dsimp only
    refine (coreParams_foldl (coreParams_doShrinkingStepNu _ _ _ _) _ _).trans ?_
    split
    · exact coreParams_reconstruct _
    · rfl
  · dsimp only
    refine (coreParams_foldl (coreParams_doShrinkingStep _ _) _ _).trans ?_
    split
    · exact coreParams_reconstruct _
    · rfl

theorem coreParams_shrinkPhase (c : ℕ) (s : SmoState) :
    coreParams (shrinkPhase c s).1 = coreParams s := by
  unfold shrinkPhase
  split
  · show coreParams (if s.shrinking then doShrinking s else s) = coreParams s
    split
    · exact coreParams_doShrinking s
    · rfl
  · rfl

theorem coreParams_solveStep (ih : ℕ → SmoState → SmoState × ℕ × Bool)
    (hih : ∀ c s, coreParams (ih c s).1 = coreParams s) (c : ℕ) (s : SmoState) :
    coreParams (solveStep ih c s).1 = coreParams s := by
  unfold solveStep
  dsimp only
  split
  · split
    · exact (coreParams_reconstruct _).trans (coreParams_shrinkPhase c s)
    · exact (hih _ _).trans ((coreParams_update _ _ _).trans
        ((coreParams_reconstruct _).trans (coreParams_shrinkPhase c s)))
  · exact (hih _ _).trans ((coreParams_update _ _ _).trans (coreParams_shrinkPhase c s))

theorem coreParams_solveLoop :
    ∀ (fuel c : ℕ) (s : SmoState), coreParams (solveLoop fuel c s).1 = coreParams s := by
  intro fuel
  induction fuel with
  | zero => intro c s; rfl
  | succ f ih =>
    intro c s
    rw [solveLoop_succ]
    exact coreParams_solveStep (solveLoop f) ih c s

/-! ### Invariants of the working-set folds (supporting C3) -/

theorem gmaxInv_update (p : ERat × ℤ) (hp : gmaxInv p) (cand : ℚ) (idx : ℕ)
    (cond : Prop) [Decidable cond] :
    gmaxInv (if cond then (ERat.fin cand, (idx : ℤ)) else p) := by
  split
  · exact Or.inr ⟨_, rfl, by omega⟩
  · exact hp

theorem gmaxInv_mvpGo (s : SmoState) :
    ∀ k, gmaxInv (mvpGo s k).1 ∧ gmaxInv (mvpGo s k).2 := by
  intro k
  induction k with
  | zero => exact ⟨Or.inl ⟨rfl, rfl⟩, Or.inl ⟨rfl, rfl⟩⟩
  | succ k ih =>
    obtain ⟨ih1, ih2⟩ := ih
    show gmaxInv (mvpStep s (mvpGo s k) k).1 ∧ gmaxInv (mvpStep s (mvpGo s k) k).2
    unfold mvpStep
    split
    · exact ⟨gmaxInv_update _ ih1 _ _ _, gmaxInv_update _ ih2 _ _ _⟩
    · exact ⟨gmaxInv_update _ ih1 _ _ _, gmaxInv_update _ ih2 _ _ _⟩

theorem gmax_le_update (c cand : ℚ) (idx : ℤ) (cond : Prop) [Decidable cond]
    (p : ERat × ℤ) (hp : ERat.le p.1 (ERat.fin c)) (hc : cond → cand ≤ c) :
    ERat.le (if cond then (ERat.fin cand, idx) else p).1 (ERat.fin c) := by
  split
  case isTrue h => exact (ERat.le_fin_fin _ _).mpr (hc h)
  case isFalse _ => exact hp

/-- If every active position contributes at most `c` to the `gmax2` maximum,
the fold stays at most `c`. -/
theorem mvpGo_snd_le (s : SmoState) (c : ℚ) :
    ∀ k, (∀ j, j < k →
        (s.targets j = true → s.reachedLower j = false → s.gradient j ≤ c) ∧
        (s.targets j = false → s.reachedUpper j = false → -(s.gradient j) ≤ c)) →
      ERat.le (mvpGo s k).2.1 (ERat.fin c) := by
  intro k
  induction k with
  | zero => intro _; rfl
  | succ k ih =>
    intro h
    have hk := h k (Nat.lt_succ_self k)
    have hpre : ERat.le (mvpGo s k).2.1 (ERat.fin c) :=
      ih (fun j hj => h j (Nat.lt_succ_of_lt hj))
    show ERat.le (mvpStep s (mvpGo s k) k).2.1 (ERat.fin c)
    unfold mvpStep
    split
    case isTrue ht =>
      exact gmax_le_update c _ _ _ _ hpre (fun hcond => hk.1 ht hcond.1)
    case isFalse ht =>
      exact gmax_le_update c _ _ _ _ hpre (fun hcond => hk.2 (by simpa using ht) hcond.1)

theorem jAssign_absurd (objDiff : ℚ) (k : ℕ) (p : ERat × ℤ)
    (hp : p.2 = -1 → p.1 = ERat.pinf)
    (h : (if ERat.le (ERat.fin objDiff) p.1 then (ERat.fin objDiff, (k : ℤ)) else p).2 = -1) :
    False := by
  split at h
  case isTrue _ =>
    dsimp only at h
    omega
  case isFalse hle => exact hle (by rw [hp h]; rfl)

theorem jGo_none (s : SmoState) (gm : ERat × ℤ) :
    ∀ k, (jGo s gm k).2 = -1 →
      (jGo s gm k).1 = ERat.pinf ∧ ∀ j, j < k → ¬ jCondStd s gm j := by
  intro k
  induction k with
  | zero => intro _; exact ⟨rfl, fun j hj => absurd hj (Nat.not_lt_zero j)⟩
  | succ k ih =>
    intro h
    have hs : jGo s gm (k + 1) = jStep s gm (jGo s gm k) k := rfl
    rw [hs] at h ⊢
    unfold jStep at h ⊢
    dsimp only at h ⊢
    by_cases ht : s.targets k = true
    · rw [if_pos ht] at h ⊢
      by_cases hlow : s.reachedLower k = false
      · rw [if_pos hlow] at h ⊢
        by_cases hpos : ERat.lt (ERat.fin 0) (ERat.add gm.1 (ERat.fin (s.gradient k)))
        · rw [if_pos hpos] at h
          exact (jAssign_absurd _ _ _ (fun hm => (ih hm).1) h).elim
        · rw [if_neg hpos] at h ⊢
          obtain ⟨hpinf, hall⟩ := ih h
          refine ⟨hpinf, ?_⟩
          intro j hj
          rcases Nat.lt_succ_iff_lt_or_eq.mp hj with hjk | rfl
          · exact hall j hjk
          · rintro (⟨_, _, hp⟩ | ⟨hf, _, _⟩)
            · exact hpos hp
            · rw [ht] at hf; exact absurd hf.symm (by simp)
      · rw [if_neg hlow] at h ⊢
        obtain ⟨hpinf, hall⟩ := ih h
        refine ⟨hpinf, ?_⟩
        intro j hj
        rcases Nat.lt_succ_iff_lt_or_eq.mp hj with hjk | rfl
        · exact hall j hjk
        · rintro (⟨_, hl, _⟩ | ⟨hf, _, _⟩)
          · exact hlow hl
          · rw [ht] at hf; exact absurd hf.symm (by simp)
    · have htf : s.targets k = false := by simpa using ht
      rw [if_neg ht] at h ⊢
      by_cases hup : s.reachedUpper k = false
      · rw [if_pos hup] at h ⊢
        by_cases hpos : ERat.lt (ERat.fin 0) (ERat.sub gm.1 (ERat.fin (s.gradient k)))
        · rw [if_pos hpos] at h
          exact (jAssign_absurd _ _ _ (fun hm => (ih hm).1) h).elim
        · rw [if_neg hpos] at h ⊢
          obtain ⟨hpinf, hall⟩ := ih h
          refine ⟨hpinf, ?_⟩
          intro j hj
          rcases Nat.lt_succ_iff_lt_or_eq.mp hj with hjk | rfl
          · exact hall j hjk
          · rintro (⟨hf, _, _⟩ | ⟨_, _, hp⟩)
            · rw [htf] at hf; exact absurd hf (by simp)
            · exact hpos hp
      · rw [if_neg hup] at h ⊢
        obtain ⟨hpinf, hall⟩ := ih h
        refine ⟨hpinf, ?_⟩
        intro j hj
        rcases Nat.lt_succ_iff_lt_or_eq.mp hj with hjk | rfl
        · exact hall j hjk
        · rintro (⟨hf, _, _⟩ | ⟨_, hu, _⟩)
          · rw [htf] at hf; exact absurd hf (by simp)
          · exact hup hu

/-- When `select_working_set` reports the optimal flag under the standard
constraint with a positive tolerance, the maximal-violating-pair sum is
below the tolerance — also in the case where the flag is due to the absence
of a valid second index. -/
theorem selectWorkingSet_optimal_lt (s : SmoState) (hnu : s.nuConstraint = false)
    (heps : 0 < s.eps) (hopt : (selectWorkingSet s).2.2 = true) :
    ERat.lt (mvpSum s) (ERat.fin s.eps) := by
  unfold selectWorkingSet at hopt
  rw [hnu] at hopt
  simp only [Bool.false_eq_true, if_false] at hopt
  set mvp := maxViolatingPair s with hmvp
  have hgoal : mvpSum s = ERat.add mvp.1.1 mvp.2.1 := rfl
  rw [hgoal]
  by_cases hC : ERat.lt (ERat.add mvp.1.1 mvp.2.1) (ERat.fin s.eps)
  · exact hC
  · have hD : ((if mvp.1.2 ≠ -1 then jGo s mvp.1 s.nactive else (ERat.pinf, -1)).2 = -1) := by
      by_cases hD : (if mvp.1.2 ≠ -1 then jGo s mvp.1 s.nactive else (ERat.pinf, -1)).2 = -1
      · exact hD
      · rw [if_neg (by exact fun hor => Or.elim hor hC hD)] at hopt
        exact absurd hopt (by simp)
    have hinv : gmaxInv mvp.1 ∧ gmaxInv mvp.2 := gmaxInv_mvpGo s s.nactive
    by_cases hidx : mvp.1.2 = -1
    · have h1 : mvp.1.1 = ERat.ninf := by
        rcases hinv.1 with ⟨hv, _⟩ | ⟨q, _, hne⟩
        · exact hv
        · exact absurd hidx hne
      have h2 : mvp.2.1 ≠ ERat.pinf := by
        rcases hinv.2 with ⟨hv, _⟩ | ⟨q, hv, _⟩ <;> rw [hv] <;> intro hc <;> cases hc
      rw [h1]
      cases hx : mvp.2.1 with
      | ninf => exact ERat.ninf_lt_fin s.eps
      | fin w => exact ERat.ninf_lt_fin s.eps
      | pinf => exact absurd hx h2
    · rw [if_pos hidx] at hD
      obtain ⟨q, hq, _⟩ : ∃ q, mvp.1.1 = ERat.fin q ∧ mvp.1.2 ≠ -1 := by
        rcases hinv.1 with ⟨_, hv⟩ | hfin
        · exact absurd hv hidx
        · exact hfin
      obtain ⟨_, hall⟩ := jGo_none s mvp.1 s.nactive hD
      have hle : ERat.le mvp.2.1 (ERat.fin (-q)) := by
        apply mvpGo_snd_le s (-q) s.nactive
        intro j hj
        have hnc := hall j hj
        constructor
        · intro htt hll
          by_contra hgt
          exact hnc (Or.inl ⟨htt, hll, by
            rw [hq, ERat.add_fin_fin, qadd_eq]
            exact (ERat.lt_fin_fin 0 (q + s.gradient j)).mpr (by linarith [not_le.mp hgt])⟩)
        · intro htt huu
          by_contra hgt
          exact hnc (Or.inr ⟨htt, huu, by
            rw [hq]
            show ERat.lt (ERat.fin 0) (ERat.add (ERat.fin q) (ERat.neg (ERat.fin (s.gradient j))))
            rw [show ERat.neg (ERat.fin (s.gradient j)) = ERat.fin (-(s.gradient j)) from rfl,
              ERat.add_fin_fin, qadd_eq]
            exact (ERat.lt_fin_fin 0 (q + -s.gradient j)).mpr (by linarith [not_le.mp hgt])⟩)
      rw [hq]
      rcases ERat.le_fin_cases mvp.2.1 (-q) hle with hni | ⟨w, hw, hwle⟩
      · rw [hni, ERat.add_ninf_right]
        exact ERat.ninf_lt_fin s.eps
      · rw [hw, ERat.add_fin_fin, qadd_eq]
        exact (ERat.lt_fin_fin _ _).mpr (by linarith)

/-- A broken-out-of loop ends in a state whose working-set selection reports
the optimal flag. -/
theorem solveLoop_broke_select :
    ∀ (fuel c : ℕ) (s s2 : SmoState) (it : ℕ), solveLoop fuel c s = (s2, it, true) →
      (selectWorkingSet s2).2.2 = true := by
  intro fuel
  induction fuel with
  | zero =>
    intro c s s2 it h
    have := congrArg (fun x => x.2.2) h
    simp [solveLoop_zero] at this
  | succ f ih =>
    intro c s s2 it h
    rw [solveLoop_succ] at h
    unfold solveStep at h
    dsimp only at h
    split at h
    · split at h
      case isTrue hopt2 =>
        have h1 := congrArg Prod.fst h
        dsimp only at h1
        rw [← h1]
        exact hopt2
      case isFalse _ =>
        rcases hE : solveLoop f 1 (update (reconstructGradient (shrinkPhase c s).1)
            (selectWorkingSet (reconstructGradient (shrinkPhase c s).1)).1
            (selectWorkingSet (reconstructGradient (shrinkPhase c s).1)).2.1) with ⟨rs, rit, rb⟩
        rw [hE] at h
        simp only [Prod.mk.injEq] at h
        obtain ⟨hrs, _, hrb⟩ := h
        rw [← hrs]
        exact ih 1 _ rs rit (by rw [hE, hrb])
    · rcases hE : solveLoop f (shrinkPhase c s).2 (update (shrinkPhase c s).1
          (selectWorkingSet (shrinkPhase c s).1).1
          (selectWorkingSet (shrinkPhase c s).1).2.1) with ⟨rs, rit, rb⟩
      rw [hE] at h
      simp only [Prod.mk.injEq] at h
      obtain ⟨hrs, _, hrb⟩ := h
      rw [← hrs]
      exact ih _ _ rs rit (by rw [hE, hrb])

/-- A loop run that did not break used exactly its fuel. -/
theorem solveLoop_not_broke_iter :
    ∀ (fuel c : ℕ) (s s2 : SmoState) (it : ℕ), solveLoop fuel c s = (s2, it, false) →
      it = fuel := by
  intro fuel
  induction fuel with
  | zero =>
    intro c s s2 it h
    have := congrArg (fun x => x.2.1) h
    simp [solveLoop_zero] at this
    omega
  | succ f ih =>
    intro c s s2 it h
    rw [solveLoop_succ] at h
    unfold solveStep at h
    dsimp only at h
    split at h
    · split at h
      case isTrue _ =>
        have := congrArg (fun x => x.2.2) h
        simp at this
      case isFalse _ =>
        rcases hE : solveLoop f 1 (update (reconstructGradient (shrinkPhase c s).1)
            (selectWorkingSet (reconstructGradient (shrinkPhase c s).1)).1
            (selectWorkingSet (reconstructGradient (shrinkPhase c s).1)).2.1) with ⟨rs, rit, rb⟩
        rw [hE] at h
        simp only [Prod.mk.injEq] at h
        obtain ⟨_, hit, hrb⟩ := h
        have := ih 1 _ rs rit (by rw [hE, hrb])
        omega
    · rcases hE : solveLoop f (shrinkPhase c s).2 (update (shrinkPhase c s).1
          (selectWorkingSet (shrinkPhase c s).1).1
          (selectWorkingSet (shrinkPhase c s).1).2.1) with ⟨rs, rit, rb⟩
      rw [hE] at h
      simp only [Prod.mk.injEq] at h
      obtain ⟨_, hit, hrb⟩ := h
      have := ih _ _ rs rit (by rw [hE, hrb])
      omega

/-- A loop run that broke used strictly less than its fuel. -/
theorem solveLoop_broke_iter_lt :
    ∀ (fuel c : ℕ) (s s2 : SmoState) (it : ℕ), solveLoop fuel c s = (s2, it, true) →
      it < fuel := by
  intro fuel
  induction fuel with
  | zero =>
    intro c s s2 it h
    have := congrArg (fun x => x.2.2) h
    simp [solveLoop_zero] at this
  | succ f ih =>
    intro c s s2 it h
    rw [solveLoop_succ] at h
    unfold solveStep at h
    dsimp only at h
    split at h
    · split at h
      case isTrue _ =>
        have := congrArg (fun x => x.2.1) h
        dsimp only at this
        omega
      case isFalse _ =>
        rcases hE : solveLoop f 1 (update (reconstructGradient (shrinkPhase c s).1)
            (selectWorkingSet (reconstructGradient (shrinkPhase c s).1)).1
            (selectWorkingSet (reconstructGradient (shrinkPhase c s).1)).2.1) with ⟨rs, rit, rb⟩
        rw [hE] at h
        simp only [Prod.mk.injEq] at h
        obtain ⟨_, hit, hrb⟩ := h
        have := ih 1 _ rs rit (by rw [hE, hrb])
        omega
    · rcases hE : solveLoop f (shrinkPhase c s).2 (update (shrinkPhase c s).1
          (selectWorkingSet (shrinkPhase c s).1).1
          (selectWorkingSet (shrinkPhase c s).1).2.1) with ⟨rs, rit, rb⟩
      rw [hE] at h
      simp only [Prod.mk.injEq] at h
      obtain ⟨_, hit, hrb⟩ := h
      have := ih _ _ rs rit (by rw [hE, hrb])
      omega

end SmoState

/-- C1: after the swap sequence `(0,2); (0,1)` the put-back of `solve`
(`output[i] = alpha[active_set[i]]`) does NOT satisfy the claimed
`output[active_set[k]] = alpha[k]`: at position `k = 0` the output entry at
original index `active_set[0]` differs from the internal alpha at position 0.
The source applies the permutation in the wrong direction (it would need
`output[active_set[i]] = alpha[i]`), which only coincides with the claim when
the accumulated permutation is an involution. -/
theorem c1_put_back_wrong_direction :
    (c1Swapped.putBack.getD (c1Swapped.activeSet 0) 0 ≠ c1Swapped.alphaVal 0) ∧
      c1Swapped.putBack = [(30 : ℚ), 10, 20] ∧
      c1Swapped.alphaVal 0 = 20 ∧ c1Swapped.activeSet 0 = 1 := by decide

/-- C4: starting from a box-feasible state with per-coordinate bounds
`C = [5, 1]`, one `swap` (which does not permute the `bounds` array) followed
by one `update` drives the alpha of original coordinate `active_set[0] = 1`
to `22/5 = 4.4`, above its bound `C_1 = 1`: box feasibility is violated at an
iteration boundary.  The update clips against the position-indexed
`bounds[i]`, which after a swap belongs to a different original coordinate. -/
theorem c4_box_feasibility_violated :
    (∀ k, k < 2 → 0 ≤ c4State.alphaVal k ∧ c4State.alphaVal k ≤ c4State.bounds k) ∧
      c4Updated.alphaVal 0 = qq 22 5 ∧
      c4Updated.activeSet 0 = 1 ∧
      c4Updated.bounds (c4Updated.activeSet 0) < c4Updated.alphaVal 0 := by decide

/-- C2: on `c2State` the main loop of `solve` exits through the optimal
branch at the very first iteration with `nactive` still `1 < n = 2` — the
claimed restoration `nactive = n` before re-selection never happens (the
source calls `reconstruct_gradient` but never resets `nactive`, so the
re-selection runs over the same shrunk prefix and necessarily agrees).  Had
the re-selection been over the restored full set, it would have returned the
violating pair `(0, 1)` (non-optimal) and the loop would have continued. -/
theorem c2_optimal_exit_without_nactive_restore :
    (solveRaw c2State).2.2 = true ∧
      (solveRaw c2State).2.1 = 0 ∧
      exitReasonOf c2State = ExitReason.ReachedThreshold ∧
      (solveRaw c2State).1.nactive = 1 ∧
      (solveRaw c2State).1.n = 2 ∧
      selectWorkingSet { (solveRaw c2State).1 with nactive := (solveRaw c2State).1.n } =
        (0, 1, false) := by decide

/-- C6: `calculate_rho_nu` does NOT perform the same bracket computation as
the standard `calculate_rho`: for the negative-class member at the lower
bound it tightens `ub2` with `max` (so `ub2` stays `+∞` from its `+∞` seed)
instead of `min`.  On `c6State` the source returns `-∞` (`r2` is infinite),
while the claimed min-tightened computation returns the finite `-3/2`. -/
theorem c6_rho_nu_max_instead_of_min :
    (calculateRhoNu c6State).1 = ERat.ninf ∧
      calculateRhoNuClaim c6State = ERat.fin (qq (-3) 2) ∧
      (calculateRhoNu c6State).1 ≠ calculateRhoNuClaim c6State := by decide

/-- C5: in `update (0, 1)` on the two-point problem, `alpha_0` crosses the
upper-bound boundary (`reached_upper` is false before and true after), yet
`gradient_fixed` is NOT adjusted by `C_0 * K(0, ·)` — it stays zero.  The
source computes `ui` from the already-updated value (line 325), so the
crossing test compares the new value against two equal bounds and never
fires; the claimed adjustment does not occur. -/
theorem c5_gradient_fixed_not_adjusted :
    c5State.reachedUpper 0 = false ∧
      c5Updated.reachedUpper 0 = true ∧
      c5Updated.alphaVal 0 = 1 ∧
      (∀ k, k < 2 → c5Updated.gradientFixed k = c5State.gradientFixed k) ∧
      c5Updated.gradientFixed 0 ≠
        qadd (c5State.gradientFixed 0) (qmul (c5State.bounds 0) (c5State.kernel 0 0)) := by
  decide

/-- C3: whenever `solve` (standard constraint, positive tolerance) returns
with exit reason `ReachedThreshold`, the maximal-violating-pair values of the
final state satisfy `gmax1 + gmax2 < eps` — including the case where
`select_working_set` reported optimal because no valid second index existed
(then the sum is non-positive, hence below the positive tolerance).  `gmax1`
and `gmax2` are the maxima computed by `max_violating_pair` over the active
set at exit. -/
theorem c3_threshold_gmax_below_eps (s0 : SmoState)
    (hnu : s0.nuConstraint = false) (heps : 0 < s0.eps)
    (hexit : exitReasonOf s0 = ExitReason.ReachedThreshold) :
    ERat.lt (mvpSum (solveFinalState s0)) (ERat.fin s0.eps) := by
  rcases hE : solveRaw s0 with ⟨fs, it, br⟩
  have hcore : coreParams fs = coreParams s0 := by
    have hc := coreParams_solveLoop (maxIterOf s0) (min s0.n 1000 + 1) s0
    rw [show solveLoop (maxIterOf s0) (min s0.n 1000 + 1) s0 = solveRaw s0 from rfl, hE] at hc
    exact hc
  have hfnu : fs.nuConstraint = s0.nuConstraint := congrArg Prod.fst hcore
  have hfeps : fs.eps = s0.eps := congrArg Prod.snd hcore
  cases br with
  | false =>
    exfalso
    have hit : it = maxIterOf s0 := solveLoop_not_broke_iter _ _ _ _ _ hE
    unfold exitReasonOf at hexit
    rw [hE] at hexit
    dsimp only at hexit
    rw [if_pos hit] at hexit
    exact absurd hexit (by intro hc; cases hc)
  | true =>
    have hsel : (selectWorkingSet fs).2.2 = true := solveLoop_broke_select _ _ _ _ _ hE
    have hlt : it < maxIterOf s0 := solveLoop_broke_iter_lt _ _ _ _ _ hE
    have hpost : solvePost s0 = fs := by
      unfold solvePost
      rw [hE]
      dsimp only
      rw [if_neg (fun hc => absurd hc.1 (not_le.mpr hlt))]
    have hfin : solveFinalState s0 = fs := by
      unfold solveFinalState
      rw [hpost]
      unfold calculateRho
      rw [hfnu.trans hnu]
      simp only [Bool.false_eq_true, if_false]
    rw [hfin, ← hfeps]
    exact selectWorkingSet_optimal_lt fs (hfnu.trans hnu) (hfeps ▸ heps) hsel

/-- Witness for C3 on the two-point toy problem: the solver reaches the
threshold after one update, and the maximal-violating-pair sum at exit is
`0 < 10⁻⁶`. -/
theorem c3_threshold_gmax_below_eps_witness :
    c5State.nuConstraint = false ∧ 0 < c5State.eps ∧
      exitReasonOf c5State = ExitReason.ReachedThreshold ∧
      ERat.lt (mvpSum (solveFinalState c5State)) (ERat.fin c5State.eps) :=
  ⟨rfl, by decide, by decide,
    c3_threshold_gmax_below_eps c5State rfl (by decide) (by decide)⟩

namespace Gnb

theorem appendD_emptyD (d : GDataset) : appendD emptyD d = d := by
  cases d
  simp [appendD, emptyD]

theorem appendD_assoc (a b c : GDataset) :
    appendD (appendD a b) c = appendD a (appendD b c) := by
  simp [appendD, List.append_assoc]

theorem DAligned_appendD (a b : GDataset) (ha : DAligned a) (hb : DAligned b) :
    DAligned (appendD a b) := by
  unfold DAligned at ha hb ⊢
  unfold appendD
  simp [ha, hb]

theorem rowsOf_append (c : ℕ) (a b : GDataset) (ha : DAligned a) :
    rowsOf c (appendD a b) = rowsOf c a ++ rowsOf c b := by
  unfold rowsOf appendD
  rw [List.zip_append ha, List.filter_append, List.map_append]

/-- Length of the zip-filter underlying `rowsOf`. -/
theorem filter_zip_length (c : ℕ) : ∀ (r : List (List ℚ)) (t : List ℕ), r.length = t.length →
    (List.filter (fun pr => pr.2 == c) (r.zip t)).length = t.count c := by
  intro r
  induction r with
  | nil =>
    intro t ht
    cases t with
    | nil => rfl
    | cons y ys => simp at ht
  | cons x xs ih =>
    intro t ht
    cases t with
    | nil => simp at ht
    | cons y ys =>
      have hlen : xs.length = ys.length := by simpa using ht
      simp only [List.zip_cons_cons, List.filter_cons, List.count_cons]
      by_cases hy : y = c
      · subst hy
        simp [ih ys hlen]
      · have h1 : (y == c) = false := beq_eq_false_iff_ne.mpr hy
        have h2 : (c == y) = false := beq_eq_false_iff_ne.mpr (fun h => hy h.symm)
        simp [h1, h2, ih ys hlen]

/-- The class-`c` row count equals the label count. -/
theorem length_rowsOf (c : ℕ) (r : List (List ℚ)) (t : List ℕ) (h : r.length = t.length) :
    (rowsOf c ⟨r, t⟩).length = t.count c := by
  unfold rowsOf
  rw [List.length_map]
  exact filter_zip_length c r t h

theorem rowsOf_ne_nil (c : ℕ) (d : GDataset) (ha : DAligned d) (hc : c ∈ d.targets) :
    rowsOf c d ≠ [] := by
  have hlen : (rowsOf c d).length = d.targets.count c := length_rowsOf c d.records d.targets ha
  intro hnil
  rw [hnil] at hlen
  have : 0 < d.targets.count c := List.count_pos_iff.mpr hc
  simp at hlen
  omega

/-- A sorted dedup enumerates exactly the members, without duplicates. -/
theorem mem_sortedDedup (l : List ℕ) (c : ℕ) : c ∈ sortedDedup l ↔ c ∈ l := by
  unfold sortedDedup
  rw [(List.perm_insertionSort (· ≤ ·) l.dedup).mem_iff]
  exact List.mem_dedup

theorem nodup_sortedDedup (l : List ℕ) : (sortedDedup l).Nodup := by
  unfold sortedDedup
  exact (List.perm_insertionSort (· ≤ ·) l.dedup).nodup_iff.mpr l.nodup_dedup

/-- The per-class row counts over the distinct labels of a batch sum to the
batch size. -/
theorem sum_rowsOf_sortedDedup (d : GDataset) (ha : DAligned d) :
    ((sortedDedup d.targets).map (fun c => (rowsOf c d).length)).sum = d.records.length := by
  have h1 : ∀ c, (rowsOf c d).length = d.targets.count c :=
    fun c => length_rowsOf c d.records d.targets ha
  have h2 : ((sortedDedup d.targets).map (fun c => (rowsOf c d).length)) =
      ((sortedDedup d.targets).map (fun c => d.targets.count c)) := by
    exact List.map_congr_left (fun c _ => h1 c)
  rw [h2]
  have hperm : (sortedDedup d.targets).Perm d.targets.dedup :=
    List.perm_insertionSort (· ≤ ·) d.targets.dedup
  rw [List.Perm.sum_eq (hperm.map (fun c => d.targets.count c))]
  rw [List.sum_map_count_dedup_eq_length]
  exact ha.symm

/-! ### Association-list lemmas for the model map -/

theorem lookup_setEntry_self (c : ℕ) (info : ClassInfo) :
    ∀ m : GnbModel, List.lookup c (setEntry m c info) = some info := by
  intro m
  induction m with
  | nil => simp [setEntry, List.lookup]
  | cons kv rest ih =>
    unfold setEntry
    by_cases hk : kv.1 = c
    · simp [hk, List.lookup]
    · simp only [if_neg hk]
      rw [show ((kv.1, kv.2) : ℕ × ClassInfo) = kv from rfl]
      simp only [List.lookup]
      rw [show (c == kv.1) = false from beq_false_of_ne (fun h => hk h.symm)]
      exact ih

theorem lookup_setEntry_ne (c d : ℕ) (hdc : d ≠ c) (info : ClassInfo) :
    ∀ m : GnbModel, List.lookup d (setEntry m c info) = List.lookup d m := by
  intro m
  induction m with
  | nil => simp [setEntry, List.lookup, beq_false_of_ne hdc]
  | cons kv rest ih =>
    unfold setEntry
    by_cases hk : kv.1 = c
    · subst hk
      simp only [if_pos rfl]
      simp only [List.lookup]
      rw [show (d == kv.1) = false from beq_false_of_ne (fun h => hdc h)]
    · simp only [if_neg hk]
      rw [show ((kv.1, kv.2) : ℕ × ClassInfo) = kv from rfl]
      simp only [List.lookup]
      cases hdk : (d == kv.1)
      · exact ih
      · rfl

theorem mem_keys_setEntry (c x : ℕ) (info : ClassInfo) :
    ∀ m : GnbModel, x ∈ (setEntry m c info).map Prod.fst ↔ x ∈ m.map Prod.fst ∨ x = c := by
  intro m
  induction m with
  | nil => simp [setEntry]
  | cons kv rest ih =>
    unfold setEntry
    by_cases hk : kv.1 = c
    · simp only [if_pos hk, List.map_cons, List.mem_cons]
      constructor
      · rintro (h | h)
        · exact Or.inr h
        · exact Or.inl (Or.inr h)
      · rintro ((h | h) | h)
        · exact Or.inl (h.trans hk)
        · exact Or.inr h
        · exact Or.inl h
    · simp only [if_neg hk, List.map_cons, List.mem_cons, ih]
      tauto

theorem nodup_keys_setEntry (c : ℕ) (info : ClassInfo) :
    ∀ m : GnbModel, (m.map Prod.fst).Nodup → ((setEntry m c info).map Prod.fst).Nodup := by
  intro m
  induction m with
  | nil => intro _; simp [setEntry]
  | cons kv rest ih =>
    intro hnd
    simp only [List.map_cons, List.nodup_cons] at hnd
    unfold setEntry
    by_cases hk : kv.1 = c
    · simp only [if_pos hk, List.map_cons, List.nodup_cons]
      exact ⟨hk ▸ hnd.1, hnd.2⟩
    · simp only [if_neg hk, List.map_cons, List.nodup_cons]
      refine ⟨?_, ih hnd.2⟩
      rw [mem_keys_setEntry]
      rintro (h | h)
      · exact hnd.1 h
      · exact hk h

theorem sumCounts_setEntry_none (c : ℕ) (info : ClassInfo) :
    ∀ m : GnbModel, List.lookup c m = none →
      sumCounts (setEntry m c info) = sumCounts m + info.classCount := by
  intro m
  induction m with
  | nil => intro _; simp [setEntry, sumCounts]
  | cons kv rest ih =>
    intro hl
    simp only [List.lookup] at hl
    cases hck : (c == kv.1) with
    | true =>
      rw [hck] at hl
      simp at hl
    | false =>
      rw [hck] at hl
      have hk : kv.1 ≠ c := fun h => by simp [h] at hck
      unfold setEntry
      simp only [if_neg hk]
      unfold sumCounts at ih ⊢
      simp only [List.map_cons, List.sum_cons, ih hl]
      omega

theorem sumCounts_setEntry_some (c : ℕ) (info old : ClassInfo) :
    ∀ m : GnbModel, List.lookup c m = some old →
      sumCounts (setEntry m c info) + old.classCount = sumCounts m + info.classCount := by
  intro m
  induction m with
  | nil => intro h; simp [List.lookup] at h
  | cons kv rest ih =>
    intro hl
    simp only [List.lookup] at hl
    cases hck : (c == kv.1) with
    | true =>
      rw [hck] at hl
      simp only [Option.some.injEq] at hl
      have hk : kv.1 = c := (eq_of_beq hck).symm
      unfold setEntry
      simp only [if_pos hk]
      unfold sumCounts
      simp only [List.map_cons, List.sum_cons]
      rw [← hl]
      omega
    | false =>
      rw [hck] at hl
      have hk : kv.1 ≠ c := fun h => by simp [h] at hck
      unfold setEntry
      simp only [if_neg hk]
      unfold sumCounts at ih ⊢
      simp only [List.map_cons, List.sum_cons]
      have hx := ih hl
      omega

/-! ### Value-map and stat lemmas -/

theorem lookup_map_val (g : ClassInfo → ClassInfo) (c : ℕ) :
    ∀ m : GnbModel, List.lookup c (m.map (fun kv => (kv.1, g kv.2))) = (List.lookup c m).map g := by
  intro m
  induction m with
  | nil => rfl
  | cons kv rest ih =>
    simp only [List.map_cons, List.lookup]
    cases hck : (c == kv.1) <;> simp [ih]

theorem keys_map_val (g : ClassInfo → ClassInfo) (m : GnbModel) :
    (m.map (fun kv => (kv.1, g kv.2))).map Prod.fst = m.map Prod.fst := by
  rw [List.map_map]
  rfl

theorem sumCounts_map_val (g : ClassInfo → ClassInfo)
    (hg : ∀ i, (g i).classCount = i.classCount) (m : GnbModel) :
    sumCounts (m.map (fun kv => (kv.1, g kv.2))) = sumCounts m := by
  unfold sumCounts
  rw [List.map_map]
  congr 1
  exact List.map_congr_left (fun kv _ => hg kv.2)

theorem zipWith_map_same {α β : Type} (f : β → β → β) (g h : α → β) :
    ∀ l : List α, List.zipWith f (l.map g) (l.map h) = l.map (fun x => f (g x) (h x)) := by
  intro l
  induction l with
  | nil => rfl
  | cons x xs ih => simp [ih]

/-- Exact-arithmetic correctness of the weighted mean merge: the weighted
combination of the two batch means is the mean of the concatenation. -/
theorem featMean_merge (A B : List (List ℚ)) (hA : A ≠ []) (hB : B ≠ []) (f : ℕ) :
    qdiv (qadd (qmul (featMean B f) (qnat B.length)) (qmul (featMean A f) (qnat A.length)))
      (qnat (A.length + B.length)) = featMean (A ++ B) f := by
  have hA0 : ((A.length : ℚ)) ≠ 0 := by
    have := List.length_pos.mpr hA
    exact_mod_cast Nat.pos_iff_ne_zero.mp this
  have hB0 : ((B.length : ℚ)) ≠ 0 := by
    have := List.length_pos.mpr hB
    exact_mod_cast Nat.pos_iff_ne_zero.mp this
  have hAB0 : ((A.length : ℚ) + (B.length : ℚ)) ≠ 0 := by
    have hA1 : (0 : ℚ) < (A.length : ℚ) := by
      exact_mod_cast List.length_pos.mpr hA
    have hB1 : (0 : ℚ) ≤ (B.length : ℚ) := by positivity
    have hs : (0 : ℚ) < (A.length : ℚ) + (B.length : ℚ) := by linarith
    exact hs.ne'
  simp only [featMean, featSum, qdiv_eq, qadd_eq, qmul_eq, qnat_eq, qsum_eq,
    List.map_append, List.sum_append, List.length_append]
  push_cast
  field_simp
  ring

/-- Characterisation of the merge on a fresh class (old count zero). -/
theorem updateMeanVariance_fresh (muOld varOld : List ℚ) (xNew : List (List ℚ)) (F : ℕ)
    (hx : xNew.length ≠ 0) :
    updateMeanVariance 0 muOld varOld xNew F = (colMeans F xNew, colVars F xNew) := by
  unfold updateMeanVariance
  rw [if_neg hx]
  simp

/-- Characterisation of the weighted-mean component of the merge when both
sides are nonempty. -/
theorem updateMeanVariance_merge_fst (countOld : ℕ) (muOld varOld : List ℚ)
    (xNew : List (List ℚ)) (F : ℕ) (hx : xNew.length ≠ 0) (hc : countOld ≠ 0) :
    (updateMeanVariance countOld muOld varOld xNew F).1 =
      (List.zipWith qadd ((colMeans F xNew).map (fun x => qmul x (qnat xNew.length)))
        (muOld.map (fun x => qmul x (qnat countOld)))).map
        (fun x => qdiv x (qnat (countOld + xNew.length))) := by
  unfold updateMeanVariance
  rw [if_neg hx]
  simp only [if_neg hc]

/-- Effect of `processClass` on the processed class: the stored count and
theta become the statistics of the extended dataset. -/
theorem processClass_entry_stat (b : GDataset) (F : ℕ) (m : GnbModel) (c : ℕ)
    (D : GDataset) (hD : DAligned D) (hx : rowsOf c b ≠ [])
    (hstat : entryStat m c = classStat F D c) :
    entryStat (processClass b F m c) c = classStat F (appendD D b) c := by
  have happ : rowsOf c (appendD D b) = rowsOf c D ++ rowsOf c b := rowsOf_append c D b hD
  have hxlen : (rowsOf c b).length ≠ 0 := fun h => hx (List.length_eq_zero.mp h)
  unfold processClass
  unfold entryStat at hstat ⊢
  rw [lookup_setEntry_self]
  cases hl : List.lookup c m with
  | none =>
    rw [hl] at hstat
    have hDnil : rowsOf c D = [] := by
      unfold classStat at hstat
      by_cases hcd : rowsOf c D = []
      · exact hcd
      · rw [if_neg hcd] at hstat
        exact absurd hstat.symm (Option.some_ne_none _)
    have hinfo : infoOf m c = ClassInfo.default := by
      unfold infoOf
      rw [hl]
      rfl
    rw [hinfo]
    have hm : updateMeanVariance ClassInfo.default.classCount ClassInfo.default.theta
        ClassInfo.default.sigma (rowsOf c b) F =
        (colMeans F (rowsOf c b), colVars F (rowsOf c b)) :=
      updateMeanVariance_fresh _ _ _ F hxlen
    rw [hm]
    unfold classStat
    rw [happ, hDnil, List.nil_append, if_neg hx]
    simp [ClassInfo.default]
  | some info =>
    rw [hl] at hstat
    have hDne : rowsOf c D ≠ [] := by
      unfold classStat at hstat
      intro hcd
      rw [if_pos hcd] at hstat
      exact Option.some_ne_none _ hstat
    unfold classStat at hstat
    rw [if_neg hDne] at hstat
    simp only [Option.map, Option.some.injEq] at hstat
    have hcount : info.classCount = (rowsOf c D).length := congrArg Prod.fst hstat
    have htheta : info.theta = colMeans F (rowsOf c D) := congrArg Prod.snd hstat
    have hinfo : infoOf m c = info := by unfold infoOf; rw [hl]; rfl
    rw [hinfo]
    have hcount0 : info.classCount ≠ 0 := by
      rw [hcount]
      exact fun h => hDne (List.length_eq_zero.mp h)
    have hm := updateMeanVariance_merge_fst info.classCount info.theta info.sigma
      (rowsOf c b) F hxlen hcount0
    unfold classStat
    rw [happ, if_neg (by
      intro hnil
      exact hDne (List.append_eq_nil.mp hnil).1)]
    simp only [Option.map, Option.some.injEq]
    have hcnt : info.classCount + (rowsOf c b).length =
        (rowsOf c D ++ rowsOf c b).length := by
      rw [hcount, List.length_append]
    refine Prod.ext ?h1 ?h2
    · exact hcnt
    · show (updateMeanVariance info.classCount info.theta info.sigma (rowsOf c b) F).1 =
        colMeans F (rowsOf c D ++ rowsOf c b)
      rw [hm, htheta]
      unfold colMeans
      rw [List.map_map, List.map_map, zipWith_map_same, List.map_map]
      apply List.map_congr_left
      intro i _
      show qdiv (qadd (qmul (featMean (rowsOf c b) i) (qnat (rowsOf c b).length))
        (qmul (featMean (rowsOf c D) i) (qnat info.classCount)))
        (qnat (info.classCount + (rowsOf c b).length)) = featMean (rowsOf c D ++ rowsOf c b) i
      rw [hcount]
      exact featMean_merge (rowsOf c D) (rowsOf c b) hDne hx i

theorem processClass_entry_other (b : GDataset) (F : ℕ) (m : GnbModel) (c d : ℕ)
    (hdc : d ≠ c) : entryStat (processClass b F m c) d = entryStat m d := by
  unfold processClass entryStat
  rw [lookup_setEntry_ne c d hdc]

theorem processClass_keys_nodup (b : GDataset) (F : ℕ) (m : GnbModel) (c : ℕ)
    (h : (m.map Prod.fst).Nodup) : ((processClass b F m c).map Prod.fst).Nodup := by
  unfold processClass
  exact nodup_keys_setEntry c _ m h

theorem sumCounts_processClass (b : GDataset) (F : ℕ) (m : GnbModel) (c : ℕ) :
    sumCounts (processClass b F m c) = sumCounts m + (rowsOf c b).length := by
  unfold processClass
  dsimp only
  cases hl : List.lookup c m with
  | none =>
    have hinfo : infoOf m c = ClassInfo.default := by unfold infoOf; rw [hl]; rfl
    rw [hinfo]
    rw [sumCounts_setEntry_none c _ m hl]
    show sumCounts m + (0 + (rowsOf c b).length) = sumCounts m + (rowsOf c b).length
    omega
  | some info =>
    have hinfo : infoOf m c = info := by unfold infoOf; rw [hl]; rfl
    rw [hinfo]
    have hsum := sumCounts_setEntry_some c
      { info with
        theta := (updateMeanVariance info.classCount info.theta info.sigma (rowsOf c b)
          F).1,
        sigma := (updateMeanVariance info.classCount info.theta info.sigma (rowsOf c b)
          F).2,
        classCount := info.classCount + (rowsOf c b).length } info m hl
    dsimp only at hsum
    omega

/-! ### The per-batch step and the partition induction -/

theorem rowsOf_nil_of_not_mem (c : ℕ) (d : GDataset) (hd : DAligned d)
    (h : c ∉ d.targets) : rowsOf c d = [] := by
  have hlen := length_rowsOf c d.records d.targets hd
  rw [List.count_eq_zero.mpr h] at hlen
  exact List.length_eq_zero.mp hlen

theorem entryStat_map_val (g : ClassInfo → ClassInfo)
    (hg : ∀ i, (g i).classCount = i.classCount ∧ (g i).theta = i.theta)
    (m : GnbModel) (c : ℕ) :
    entryStat (m.map (fun kv => (kv.1, g kv.2))) c = entryStat m c := by
  unfold entryStat
  rw [lookup_map_val]
  cases List.lookup c m with
  | none => rfl
  | some i => simp [Option.map, (hg i).1, (hg i).2]

theorem ncols_of_wf (F : ℕ) (b : GDataset) (hb : WfBatch F b) : ncols b = F := by
  obtain ⟨hne, _, hrows⟩ := hb
  unfold ncols
  cases hr : b.records with
  | nil => exact absurd hr hne
  | cons r rest =>
    show r.length = F
    exact hrows r (by rw [hr]; exact List.mem_cons_self r rest)

theorem maxFeatureVariance_some (F : ℕ) (hF : 0 < F) (b : GDataset) (hb : WfBatch F b) :
    ∃ mv, maxFeatureVariance b = some mv := by
  unfold maxFeatureVariance
  have hne : b.records.isEmpty = false := by
    cases hr : b.records with
    | nil => exact absurd hr hb.1
    | cons r rest => rfl
  rw [hne]
  simp only [Bool.false_eq_true, if_false]
  have hcols : colVars (ncols b) b.records ≠ [] := by
    unfold colVars
    rw [ncols_of_wf F b hb]
    intro hnil
    have := List.map_eq_nil_iff.mp hnil
    rw [List.range_eq_nil] at this
    omega
  cases hcv : colVars (ncols b) b.records with
  | nil => exact absurd hcv hcols
  | cons x xs => exact ⟨_, rfl⟩

theorem foldClasses (F : ℕ) (D b : GDataset) (hD : DAligned D) :
    ∀ (cs : List ℕ) (m : GnbModel), cs.Nodup → (∀ c ∈ cs, rowsOf c b ≠ []) →
      FoldInv F D b cs m →
      FoldInv F D b [] (cs.foldl (processClass b F) m) ∧
      sumCounts (cs.foldl (processClass b F) m) =
        sumCounts m + (cs.map (fun c => (rowsOf c b).length)).sum := by
  intro cs
  induction cs with
  | nil =>
    intro m _ _ hInv
    exact ⟨hInv, by simp⟩
  | cons c rest ih =>
    intro m hnd hmem hInv
    simp only [List.foldl_cons, List.map_cons, List.sum_cons]
    have hndr : rest.Nodup := (List.nodup_cons.mp hnd).2
    have hcnr : c ∉ rest := (List.nodup_cons.mp hnd).1
    have hInvStep : FoldInv F D b rest (processClass b F m c) := by
      obtain ⟨hkeys, hstat⟩ := hInv
      refine ⟨processClass_keys_nodup b F m c hkeys, ?h⟩
      intro d
      constructor
      · intro hd
        have hdc : d ≠ c := fun he => hcnr (he ▸ hd)
        rw [processClass_entry_other b F m c d hdc]
        exact (hstat d).1 (List.mem_cons_of_mem c hd)
      · intro hd
        by_cases hdc : d = c
        · subst hdc
          exact processClass_entry_stat b F m d D hD (hmem d (List.mem_cons_self d rest))
            ((hstat d).1 (List.mem_cons_self d rest))
        · rw [processClass_entry_other b F m c d hdc]
          exact (hstat d).2 (by simp [hdc, hd])
    have hrec := ih (processClass b F m c) hndr
      (fun x hx => hmem x (List.mem_cons_of_mem c hx)) hInvStep
    refine ⟨hrec.1, ?hsum⟩
    rw [hrec.2, sumCounts_processClass]
    omega

/-- One `fit_with` call on a well-formed batch advances the model invariant
from the accumulated data `D` to `D ++ b`, and the resulting priors are
`count / Σ count`. -/
theorem fitWithGo_step (vs : ℚ) (F : ℕ) (hF : 0 < F) (D b : GDataset)
    (hD : DAligned D) (hb : WfBatch F b) (m : GnbModel)
    (hkeys : (m.map Prod.fst).Nodup)
    (hstat : ∀ c, entryStat m c = classStat F D c)
    (hsum : sumCounts m = D.records.length) :
    ∃ m2, fitWithGo vs m b = Except.ok m2 ∧
      (m2.map Prod.fst).Nodup ∧
      (∀ c, entryStat m2 c = classStat F (appendD D b) c) ∧
      sumCounts m2 = (appendD D b).records.length ∧
      (∀ c info, List.lookup c m2 = some info →
        info.prior = qdiv (qnat info.classCount) (qnat (sumCounts m2))) := by
  obtain ⟨mv, hmv⟩ := maxFeatureVariance_some F hF b hb
  set m1 : GnbModel := mapSigma (fun x => qsub x (qmul vs mv)) m with hm1
  have hkeys1 : (m1.map Prod.fst).Nodup := by
    have h : m1.map Prod.fst = m.map Prod.fst :=
      keys_map_val (fun i => { i with sigma := i.sigma.map (fun x => qsub x (qmul vs mv)) }) m
    rw [h]
    exact hkeys
  have hstat1 : ∀ c, entryStat m1 c = classStat F D c := by
    intro c
    have h : entryStat m1 c = entryStat m c :=
      entryStat_map_val (fun i => { i with sigma := i.sigma.map (fun x => qsub x (qmul vs mv)) })
        (fun i => ⟨rfl, rfl⟩) m c
    rw [h]
    exact hstat c
  have hsum1 : sumCounts m1 = D.records.length := by
    have h : sumCounts m1 = sumCounts m :=
      sumCounts_map_val (fun i => { i with sigma := i.sigma.map (fun x => qsub x (qmul vs mv)) })
        (fun i => rfl) m
    rw [h]
    exact hsum
  have hInv0 : FoldInv F D b (sortedDedup b.targets) m1 := by
    refine ⟨hkeys1, ?h⟩
    intro c
    refine ⟨fun _ => hstat1 c, ?h2⟩
    intro hc
    have hcm : c ∉ b.targets := fun hmem => hc ((mem_sortedDedup b.targets c).mpr hmem)
    have hnil : rowsOf c b = [] := rowsOf_nil_of_not_mem c b hb.2.1 hcm
    rw [hstat1 c]
    unfold classStat
    rw [rowsOf_append c D b hD, hnil, List.append_nil]
  have hfold := foldClasses F D b hD (sortedDedup b.targets) m1
    (nodup_sortedDedup b.targets)
    (fun c hc => rowsOf_ne_nil c b hb.2.1 ((mem_sortedDedup b.targets c).mp hc)) hInv0
  set m2mid : GnbModel := (sortedDedup b.targets).foldl (processClass b F) m1 with hm2mid
  have hkeys2 : (m2mid.map Prod.fst).Nodup := hfold.1.1
  have hstat2 : ∀ c, entryStat m2mid c = classStat F (appendD D b) c := by
    intro c
    exact (hfold.1.2 c).2 (List.not_mem_nil c)
  have hsum2 : sumCounts m2mid = (appendD D b).records.length := by
    rw [hfold.2, hsum1, sum_rowsOf_sortedDedup b hb.2.1]
    show D.records.length + b.records.length = (D.records ++ b.records).length
    rw [List.length_append]
  set m3 : GnbModel := mapSigma (fun x => qadd x (qmul vs mv)) m2mid with hm3
  have hkeys3 : (m3.map Prod.fst).Nodup := by
    have h : m3.map Prod.fst = m2mid.map Prod.fst :=
      keys_map_val (fun i => { i with sigma := i.sigma.map (fun x => qadd x (qmul vs mv)) }) m2mid
    rw [h]
    exact hkeys2
  have hstat3 : ∀ c, entryStat m3 c = classStat F (appendD D b) c := by
    intro c
    have h : entryStat m3 c = entryStat m2mid c :=
      entryStat_map_val (fun i => { i with sigma := i.sigma.map (fun x => qadd x (qmul vs mv)) })
        (fun i => ⟨rfl, rfl⟩) m2mid c
    rw [h]
    exact hstat2 c
  have hsum3 : sumCounts m3 = (appendD D b).records.length := by
    have h : sumCounts m3 = sumCounts m2mid :=
      sumCounts_map_val (fun i => { i with sigma := i.sigma.map (fun x => qadd x (qmul vs mv)) })
        (fun i => rfl) m2mid
    rw [h]
    exact hsum2
  refine ⟨updatePriors m3, ?hok, ?hk, ?hs, ?hsc, ?hp⟩
  · have hgo : fitWithGo vs m b = Except.ok (updatePriors (mapSigma
        (fun x => qadd x (qmul vs mv))
        ((sortedDedup b.targets).foldl (processClass b (ncols b)) m1))) := by
      unfold fitWithGo
      rw [hmv]
    rw [ncols_of_wf F b hb] at hgo
    exact hgo
  · have h : (updatePriors m3).map Prod.fst = m3.map Prod.fst :=
      keys_map_val (fun i => { i with prior := qdiv (qnat i.classCount) (qnat (sumCounts m3)) }) m3
    rw [h]
    exact hkeys3
  · intro c
    have h : entryStat (updatePriors m3) c = entryStat m3 c :=
      entryStat_map_val (fun i => { i with prior := qdiv (qnat i.classCount) (qnat (sumCounts m3)) })
        (fun i => ⟨rfl, rfl⟩) m3 c
    rw [h]
    exact hstat3 c
  · have h : sumCounts (updatePriors m3) = sumCounts m3 :=
      sumCounts_map_val (fun i => { i with prior := qdiv (qnat i.classCount) (qnat (sumCounts m3)) })
        (fun i => rfl) m3
    rw [h]
    exact hsum3
  · intro c info hl
    have hscEq : sumCounts (updatePriors m3) = sumCounts m3 :=
      sumCounts_map_val (fun i => { i with prior := qdiv (qnat i.classCount) (qnat (sumCounts m3)) })
        (fun i => rfl) m3
    have hlk : List.lookup c (updatePriors m3) = (List.lookup c m3).map
        (fun i => { i with prior := qdiv (qnat i.classCount) (qnat (sumCounts m3)) }) :=
      lookup_map_val (fun i => { i with prior := qdiv (qnat i.classCount) (qnat (sumCounts m3)) }) c m3
    rw [hlk] at hl
    cases hl3 : List.lookup c m3 with
    | none =>
      rw [hl3] at hl
      exact absurd hl (by simp)
    | some i3 =>
      rw [hl3] at hl
      simp only [Option.map, Option.some.injEq] at hl
      rw [← hl, hscEq]

theorem appendD_emptyD_right (d : GDataset) : appendD d emptyD = d := by
  cases d
  simp [appendD, emptyD]

theorem concatD_aligned : ∀ ds : List GDataset, (∀ d ∈ ds, DAligned d) →
    DAligned (concatD ds) := by
  intro ds
  induction ds with
  | nil => intro _; rfl
  | cons d rest ih =>
    intro h
    exact DAligned_appendD d (concatD rest) (h d (List.mem_cons_self d rest))
      (ih (fun x hx => h x (List.mem_cons_of_mem d hx)))

theorem concatD_rows (F : ℕ) : ∀ ds : List GDataset,
    (∀ d ∈ ds, ∀ r ∈ d.records, r.length = F) →
    ∀ r ∈ (concatD ds).records, r.length = F := by
  intro ds
  induction ds with
  | nil => intro _ r hr; exact absurd hr (List.not_mem_nil r)
  | cons d rest ih =>
    intro h r hr
    have hr2 : r ∈ d.records ++ (concatD rest).records := hr
    rcases List.mem_append.mp hr2 with hl | hrt
    · exact h d (List.mem_cons_self d rest) r hl
    · exact ih (fun x hx => h x (List.mem_cons_of_mem d hx)) r hrt

theorem WfBatch_concatD (F : ℕ) (ds : List GDataset) (hne : ds ≠ [])
    (hwf : ∀ d ∈ ds, WfBatch F d) : WfBatch F (concatD ds) := by
  refine ⟨?hne2, concatD_aligned ds (fun d hd => (hwf d hd).2.1),
    concatD_rows F ds (fun d hd => (hwf d hd).2.2)⟩
  cases ds with
  | nil => exact absurd rfl hne
  | cons d rest =>
    have hdr : d.records ≠ [] := (hwf d (List.mem_cons_self d rest)).1
    cases hr : d.records with
    | nil => exact absurd hr hdr
    | cons x xs =>
      show d.records ++ (concatD rest).records ≠ []
      rw [hr]
      simp

/-- Fold invariant over batch lists: starting from a model that carries the
exact statistics of the data seen so far, the fold over further
well-formed batches succeeds and carries the statistics of all the data. -/
theorem foldFit_go (vs : ℚ) (F : ℕ) (hF : 0 < F) :
    ∀ ds : List GDataset, (∀ d ∈ ds, WfBatch F d) →
    ∀ (D : GDataset) (m : GnbModel), DAligned D →
      (m.map Prod.fst).Nodup →
      (∀ c, entryStat m c = classStat F D c) →
      sumCounts m = D.records.length →
      (∀ c info, List.lookup c m = some info →
        info.prior = qdiv (qnat info.classCount) (qnat (sumCounts m))) →
      ∃ m2, ds.foldl (fun acc d => some (fitWith vs acc d)) (some (Except.ok m)) =
          some (Except.ok m2) ∧
        (m2.map Prod.fst).Nodup ∧
        (∀ c, entryStat m2 c = classStat F (appendD D (concatD ds)) c) ∧
        sumCounts m2 = (appendD D (concatD ds)).records.length ∧
        (∀ c info, List.lookup c m2 = some info →
          info.prior = qdiv (qnat info.classCount) (qnat (sumCounts m2))) := by
  intro ds
  induction ds with
  | nil =>
    intro _ D m hD hkeys hstat hsum hprior
    have hDe : appendD D (concatD []) = D := appendD_emptyD_right D
    refine ⟨m, rfl, hkeys, fun c => by rw [hDe]; exact hstat c, by rw [hDe]; exact hsum, hprior⟩
  | cons b rest ih =>
    intro hwf D m hD hkeys hstat hsum hprior
    have hb : WfBatch F b := hwf b (List.mem_cons_self b rest)
    obtain ⟨m2, hok, hk2, hs2, hsc2, hp2⟩ :=
      fitWithGo_step vs F hF D b hD hb m hkeys hstat hsum
    have hstep : fitWith vs (some (Except.ok m)) b = Except.ok m2 := hok
    simp only [List.foldl_cons]
    rw [hstep]
    have hD2 : DAligned (appendD D b) := DAligned_appendD D b hD hb.2.1
    obtain ⟨m3, hok3, hk3, hs3, hsc3, hp3⟩ :=
      ih (fun d hd => hwf d (List.mem_cons_of_mem b hd)) (appendD D b) m2 hD2 hk2 hs2 hsc2 hp2
    refine ⟨m3, hok3, hk3, ?hs, ?hsc, hp3⟩
    · intro c
      rw [hs3 c, appendD_assoc]
      rfl
    · rw [hsc3, appendD_assoc]
      rfl

/-- The statistics carried by the empty model match the empty dataset. -/
theorem entryStat_nil (F : ℕ) (c : ℕ) :
    entryStat ([] : GnbModel) c = classStat F emptyD c := by
  unfold entryStat classStat
  have h : rowsOf c emptyD = [] := rfl
  rw [h, if_pos rfl]
  rfl

/-- Fitting a partition of the data batch by batch and fitting the whole
data at once succeed together and agree exactly on every class count,
every `theta`, and every prior. -/
theorem foldFit_agrees (vs : ℚ) (F : ℕ) (hF : 0 < F) (ds : List GDataset)
    (hne : ds ≠ []) (hwf : ∀ d ∈ ds, WfBatch F d) :
    ∃ mF mW, foldFit vs ds = some (Except.ok mF) ∧
      fitWith vs none (concatD ds) = Except.ok mW ∧
      ∀ c, (List.lookup c mF).map (fun i => (i.classCount, i.theta, i.prior)) =
        (List.lookup c mW).map (fun i => (i.classCount, i.theta, i.prior)) := by
  have hE : DAligned emptyD := rfl
  have hkeys0 : ((([] : GnbModel)).map Prod.fst).Nodup := List.nodup_nil
  have hstat0 : ∀ c, entryStat ([] : GnbModel) c = classStat F emptyD c := entryStat_nil F
  have hsum0 : sumCounts ([] : GnbModel) = emptyD.records.length := rfl
  have hprior0 : ∀ c info, List.lookup c ([] : GnbModel) = some info →
      info.prior = qdiv (qnat info.classCount) (qnat (sumCounts ([] : GnbModel))) := by
    intro c info hl
    exact absurd hl (by simp [List.lookup])
  -- the whole-data side
  have hwcat : WfBatch F (concatD ds) := WfBatch_concatD F ds hne hwf
  obtain ⟨mW, hokW, hkW, hsW, hscW, hpW⟩ :=
    fitWithGo_step vs F hF emptyD (concatD ds) hE hwcat [] hkeys0 hstat0 hsum0
  have hokW2 : fitWith vs none (concatD ds) = Except.ok mW := hokW
  -- the fold side
  cases ds with
  | nil => exact absurd rfl hne
  | cons b rest =>
    obtain ⟨mF, hokF, hkF, hsF, hscF, hpF⟩ :=
      foldFit_go vs F hF (b :: rest) hwf emptyD [] hE hkeys0 hstat0 hsum0 hprior0
    have hfeq : foldFit vs (b :: rest) = (b :: rest).foldl
        (fun acc d => some (fitWith vs acc d)) (some (Except.ok ([] : GnbModel))) := rfl
    refine ⟨mF, mW, hfeq.trans hokF, hokW2, ?hall⟩
    intro c
    have hsF2 : entryStat mF c = classStat F (concatD (b :: rest)) c := by
      rw [hsF c, appendD_emptyD]
    have hsW2 : entryStat mW c = classStat F (concatD (b :: rest)) c := by
      rw [hsW c, appendD_emptyD]
    have hscF2 : sumCounts mF = (concatD (b :: rest)).records.length := by
      rw [hscF, appendD_emptyD]
    have hscW2 : sumCounts mW = (concatD (b :: rest)).records.length := by
      rw [hscW, appendD_emptyD]
    cases hcs : classStat F (concatD (b :: rest)) c with
    | none =>
      rw [hcs] at hsF2 hsW2
      unfold entryStat at hsF2 hsW2
      have hlF : List.lookup c mF = none := by
        cases hl : List.lookup c mF with
        | none => rfl
        | some i => rw [hl] at hsF2; exact absurd hsF2 (by simp)
      have hlW : List.lookup c mW = none := by
        cases hl : List.lookup c mW with
        | none => rfl
        | some i => rw [hl] at hsW2; exact absurd hsW2 (by simp)
      rw [hlF, hlW]
    | some st =>
      rw [hcs] at hsF2 hsW2
      unfold entryStat at hsF2 hsW2
      cases hlF : List.lookup c mF with
      | none => rw [hlF] at hsF2; exact absurd hsF2 (by simp)
      | some iF =>
        cases hlW : List.lookup c mW with
        | none => rw [hlW] at hsW2; exact absurd hsW2 (by simp)
        | some iW =>
          rw [hlF] at hsF2
          rw [hlW] at hsW2
          simp only [Option.map, Option.some.injEq] at hsF2 hsW2
          have htup : (iF.classCount, iF.theta) = (iW.classCount, iW.theta) := by
            rw [hsF2, hsW2]
          have hcc : iF.classCount = iW.classCount := congrArg Prod.fst htup
          have hth : iF.theta = iW.theta := congrArg Prod.snd htup
          have hprF := hpF c iF hlF
          have hprW := hpW c iW hlW
          have hpr : iF.prior = iW.prior := by
            rw [hprF, hprW, hcc, hscF2, hscW2]
          simp only [Option.map, Option.some.injEq]
          rw [hcc, hth, hpr]

end Gnb

/-! ### GNB claims -/

/-- C8: `predict` does NOT break joint-log-likelihood ties deterministically:
its result depends on the iteration order of the model's `HashMap`, which in
Rust is nondeterministic across runs.  For the tied model `c8Model` and the
single input row `[1]`, the iteration order `[1, 2]` predicts class 1 while
the equally valid order `[2, 1]` predicts class 2; both orders enumerate
exactly the model's keys. -/
theorem c8_predict_depends_on_map_order :
    ((c8Model.map Prod.fst).Perm [1, 2] ∧ (c8Model.map Prod.fst).Perm [2, 1]) ∧
      Gnb.predictWithOrder (fun q => q) 6 c8Model [1, 2] [[1]] = [1] ∧
      Gnb.predictWithOrder (fun q => q) 6 c8Model [2, 1] [[1]] = [2] ∧
      Gnb.predictWithOrder (fun q => q) 6 c8Model [1, 2] [[1]] ≠
        Gnb.predictWithOrder (fun q => q) 6 c8Model [2, 1] [[1]] := by decide

/-- C9: `fit_with` propagates a prior error unchanged, before any fitting
work on the batch (the match on the prior result precedes the epsilon
computation in the source). -/
theorem c9_fit_with_propagates_error (vs : ℚ) (e : GnbError) (d : GDataset) :
    Gnb.fitWith vs (some (Except.error e)) d = Except.error e := rfl

/-- C10: `fit` returns exactly `fit_with(None, dataset)`; the sorted unique
class labels computed inside `fit` are dead work with no effect on the
returned model. -/
theorem c10_fit_is_fit_with_none (vs : ℚ) (d : GDataset) :
    Gnb.fit vs d = Gnb.fitWith vs none d := rfl

/-- C7 counterexample: with the default smoothing `1e-9`, incremental
fitting over the partition `[c7Batch1, c7Batch2]` gives class 0 the variance
`1000/3 + 0`, while the single whole-dataset fit gives `500`: the relative
deviation is `1/3`, far beyond the claimed `10⁻⁶` tolerance.  The epsilon
subtracted at the second call (computed from that batch) does not match the
epsilon added at the first call, and the mismatch is scaled into the merged
variance. -/
theorem c7_sigma_tolerance_counterexample :
    c7SigmaOf c7FoldResult 0 = [qq 1000 3] ∧
      c7SigmaOf c7WholeResult 0 = [(500 : ℚ)] ∧
      ¬ (qsub 500 (qq 1000 3) ≤ qmul (qq 1 1000000) 500) := by decide

/-- C7 (amended): for every partition of the data into nonempty, aligned,
rectangular batches, folding `fit_with` over the batches (starting from
`None`) and a single `fit` on the whole dataset both succeed and agree
EXACTLY on every class count, every `theta`, and every prior.  The claimed
`10⁻⁶` relative tolerance on `sigma` does NOT hold (see the counterexample):
the variance smoothing epsilon subtracted and re-added at each incremental
call is computed from the current batch, so the sigmas can differ by an
unbounded relative amount. -/
theorem c7_incremental_fit_counts_theta_priors_exact (vs : ℚ) (F : ℕ) (hF : 0 < F)
    (ds : List GDataset) (hne : ds ≠ []) (hwf : ∀ d ∈ ds, Gnb.WfBatch F d) :
    ∃ mF mW, Gnb.foldFit vs ds = some (Except.ok mF) ∧
      Gnb.fit vs (Gnb.concatD ds) = Except.ok mW ∧
      ∀ c, (List.lookup c mF).map (fun i => (i.classCount, i.theta, i.prior)) =
        (List.lookup c mW).map (fun i => (i.classCount, i.theta, i.prior)) := by
  obtain ⟨mF, mW, hF2, hW2, hall⟩ := Gnb.foldFit_agrees vs F hF ds hne hwf
  exact ⟨mF, mW, hF2, hW2, hall⟩

/-- The amended C7 at a concrete input: the two-batch partition
`[c7Batch1, c7Batch2]` of a one-feature dataset satisfies the hypotheses,
so the fold and the whole-data fit agree exactly on counts, thetas and
priors there. -/
theorem c7_incremental_fit_counts_theta_priors_exact_witness :
    ∃ mF mW, Gnb.foldFit c7vs [c7Batch1, c7Batch2] = some (Except.ok mF) ∧
      Gnb.fit c7vs (Gnb.concatD [c7Batch1, c7Batch2]) = Except.ok mW ∧
      ∀ c, (List.lookup c mF).map (fun i => (i.classCount, i.theta, i.prior)) =
        (List.lookup c mW).map (fun i => (i.classCount, i.theta, i.prior)) :=
  c7_incremental_fit_counts_theta_priors_exact c7vs 1 (by decide)
    [c7Batch1, c7Batch2] (List.cons_ne_nil c7Batch1 [c7Batch2]) (by decide)

end LinfaProof
